import Mathlib

/-!
Verification of the PSBoxs library (`src/lib.rs`): a bit-vector codec
(`bits2num` / `num2bits`), a bit-width calculator (`ceil_log`), a
substitution box (`SBox`) and a permutation box (`PBox`).

All Rust functions are translated as executable Lean definitions.  Machine
integers (`u32`) are modelled as `Nat` with explicit reduction modulo `2^32`
at the points where the Rust code can wrap; operations that can panic
(out-of-bounds indexing, integer underflow) are modelled in `Option`, with
`none` standing for a panic.
-/

namespace PSBoxs

/-- Embedding of `bits2num`: fold over the bits most-significant first,
accumulating `result << 1 | bit` in a `u32` register; the left shift
discards the bit shifted out, hence the reduction modulo `2^32`. -/
def bits2num (bits : List Bool) : Nat :=
  bits.foldl (fun result bit => ((result <<< 1) % 2 ^ 32) ||| bit.toNat) 0

/-- Loop of `num2bits`: push the low bit of `num`, shift `num` right, repeat
`bit_count` times.  The bits come out least-significant first. -/
def num2bitsLSB : Nat → Nat → List Bool
  | _, 0 => []
  | num, bit_count + 1 => decide (num % 2 = 1) :: num2bitsLSB (num / 2) bit_count

/-- Embedding of `num2bits`: the collected low-order bits reversed into
most-significant-first order. -/
def num2bits (num : Nat) (bit_count : Nat) : List Bool :=
  (num2bitsLSB num bit_count).reverse

/-- Loop of `SBox::ceil_log`, with an explicit fuel (the loop strictly
decreases `num`, so `num` itself is enough fuel; `ceil_log_eq` below
recovers the fuel-free recurrence of the source). -/
def ceil_log_go : Nat → Nat → Nat
  | 0, _ => 0
  | fuel + 1, num => if 1 < num then ceil_log_go fuel (num / 2 + num % 2) + 1 else 0

/-- Embedding of `SBox::ceil_log`: repeatedly replace `num` by
`(num >> 1) + (num & 1)` (its ceiling half), counting the steps, until
`num ≤ 1`. -/
def ceil_log (num : Nat) : Nat :=
  ceil_log_go num num

/-- The most-significant-bit-first integer value of a bit vector, at full
precision.  This is the mathematical reading that the specification gives to
a bit vector; `bits2num` computes it modulo `2^32`. -/
def msbValue : List Bool → Nat
  | [] => 0
  | bit :: rest => bit.toNat * 2 ^ rest.length + msbValue rest

/-- The number of binary digits needed to write `x` (`0` for `x = 0`): the
specification's "number of bits required to represent" a table entry.  By
`le_pow_ceil_log` and `ceil_log_le` this is the least `k` with `x < 2 ^ k`;
it exceeds `ceil_log x` exactly when `x` is `1` or an exact power of two. -/
def bitsToRepresent (x : Nat) : Nat := ceil_log (x + 1)

/-- Spec-side reading of "the maximum number of bits required to represent
any table entry". -/
def maxRepresentationBits (table : List (List Nat)) : Nat :=
  table.foldl
    (fun acc row => row.foldl (fun acc el => Nat.max acc (bitsToRepresent el)) acc) 0

/-- Embedding of the `PBox` struct: the validated permutation and its
derived inverse. -/
structure PBox where
  permutation : List Nat
  inverse_permutation : List Nat
deriving DecidableEq

namespace PBox

/-- Loop of `PBox::is_permutation`: walk the entries keeping a `u32` bitmask
`used` of the 1-based positions already seen.  All shifts are by
`num - 1 ≤ 31`, so modelling the mask as `Nat` is exact. -/
def is_permutation_go (n : Nat) : List Nat → Nat → Bool
  | [], _ => true
  | num :: rest, used =>
    if n < num || num = 0 then false
    else if used &&& (1 <<< (num - 1)) ≠ 0 then false
    else is_permutation_go n rest (used ||| (1 <<< (num - 1)))

/-- Embedding of `PBox::is_permutation`: the length must be at most 32 and
no entry may be zero, exceed the length, or repeat. -/
def is_permutation (permutation : List Nat) : Bool :=
  if permutation.length ≤ 32 then
    is_permutation_go permutation.length permutation 0
  else false

/-- Embedding of `PBox::reverse_permutation`:
`reverse_permutation[permutation[i] - 1] = i + 1` for each `i`, built by a
loop over the indices. -/
def reverse_permutation (permutation : List Nat) : List Nat :=
  (List.range permutation.length).foldl
    (fun reverse i => reverse.set (permutation.getD i 0 - 1) (i + 1))
    (List.replicate permutation.length 0)

/-- Embedding of `PBox::new`. -/
def new (permutation : List Nat) : Except String PBox :=
  if is_permutation permutation then
    Except.ok { inverse_permutation := reverse_permutation permutation,
                permutation := permutation }
  else Except.error "invalid permutation"

/-- Loop of `PBox::transform` over the index list `0..n` with
`n = bits.length`.  Reading `permutation[i]` out of bounds, or writing
`result[num - 1]` out of bounds, or the `u32` underflow `0 - 1`, panics:
modelled as `none`. -/
def transform_go (bits : List Bool) (permutation : List Nat) :
    List Nat → List Bool → Option (List Bool)
  | [], result => some result
  | i :: rest, result =>
      match permutation[i]? with
      | some num =>
          if num = 0 then none
          else if num - 1 < result.length then
            transform_go bits permutation rest
              (result.set (num - 1) (bits.getD i false))
          else none
      | none => none

/-- Embedding of `PBox::transform`: `result[permutation[i] - 1] = bits[i]`
for every `i` below `bits.length`, starting from an all-`false` vector of
the input's length. -/
def transform (bits : List Bool) (permutation : List Nat) : Option (List Bool) :=
  transform_go bits permutation (List.range bits.length)
    (List.replicate bits.length false)

/-- Embedding of `PBox::encrypt`. -/
def encrypt (p : PBox) (bits : List Bool) : Option (List Bool) :=
  transform bits p.permutation

/-- Embedding of `PBox::decrypt`. -/
def decrypt (p : PBox) (bits : List Bool) : Option (List Bool) :=
  transform bits p.inverse_permutation

/-- Index-level facts used about a permutation array of size `n`:
its length, the range of its entries, and injectivity. -/
def PermSpec (p : List Nat) (n : Nat) : Prop :=
  p.length = n ∧ (∀ i, i < n → 1 ≤ p.getD i 0 ∧ p.getD i 0 ≤ n) ∧
    (∀ i j, i < n → j < n → p.getD i 0 = p.getD j 0 → i = j)

end PBox

/-- Embedding of the `SBox` struct: the validated table and its derived
inverse. -/
structure SBox where
  table : List (List Nat)
  inverse_table : List (List Nat)
deriving DecidableEq

namespace SBox

/-- Reading `table[i][j]`; total here, used only at indices shown in
bounds. -/
def getEntry (table : List (List Nat)) (i j : Nat) : Nat :=
  (table.getD i []).getD j 0

/-- Embedding of `SBox::max_bits`: the maximum of `ceil_log` over all the
entries of the table. -/
def max_bits (table : List (List Nat)) : Nat :=
  table.foldl (fun acc row => row.foldl (fun acc el => Nat.max acc (ceil_log el)) acc) 0

/-- Embedding of `SBox::check_table`: the row count and the column count
(read off the first row) are nonzero powers of two, every row has that
column count, and `max_bits` equals `ceil_log n + ceil_log m`. -/
def check_table (table : List (List Nat)) : Bool :=
  let n := table.length
  if n = 0 ∨ n ≠ 1 <<< ceil_log n then false
  else
    let m := (table.headD []).length
    if m = 0 ∨ m ≠ 1 <<< ceil_log m then false
    else if ∃ row ∈ table, row.length ≠ m then false
    else if max_bits table ≠ ceil_log n + ceil_log m then false
    else true

/-- Embedding of `SBox::reverse_table`: for every cell `(i, j)`, decode the
entry into `max_bits` bits, split after `ceil_log n` bits, and store the
encoded address `(i << ceil_log m) | j` at the decoded position. -/
def reverse_table (table : List (List Nat)) : List (List Nat) :=
  let result_bits_count := max_bits table
  let n := table.length
  let m := (table.headD []).length
  (List.range n).foldl
    (fun result i =>
      (List.range m).foldl
        (fun result j =>
          let bits := num2bits (getEntry table i j) result_bits_count
          let outer_bits := bits.take (ceil_log n)
          let middle_bits := bits.drop (ceil_log n)
          result.set (bits2num outer_bits)
            ((result.getD (bits2num outer_bits) []).set (bits2num middle_bits)
              ((i <<< ceil_log m) ||| j)))
        result)
    (List.replicate n (List.replicate m 0))

/-- Embedding of `SBox::transform`: split the input after
`ceil_log table.length` bits, decode the two halves as row and column
indices, look the entry up and re-encode it over `max_bits table` bits.
`split_at` and the two indexings panic (`none`) when out of range. -/
def transform (bits : List Bool) (table : List (List Nat)) : Option (List Bool) :=
  let outer_bits_count := ceil_log table.length
  if outer_bits_count ≤ bits.length then
    let outer_bits := bits.take outer_bits_count
    let middle_bits := bits.drop outer_bits_count
    let result_bits_count := max_bits table
    match table[bits2num outer_bits]? with
    | some row =>
        match row[bits2num middle_bits]? with
        | some el => some (num2bits el result_bits_count)
        | none => none
    | none => none
  else none

/-- Embedding of `SBox::new`. -/
def new (table : List (List Nat)) : Except String SBox :=
  if check_table table then
    Except.ok { inverse_table := reverse_table table, table := table }
  else Except.error "invalid table"

/-- Embedding of `SBox::encrypt`. -/
def encrypt (s : SBox) (bits : List Bool) : Option (List Bool) :=
  transform bits s.table

/-- Embedding of `SBox::decrypt`. -/
def decrypt (s : SBox) (bits : List Bool) : Option (List Bool) :=
  transform bits s.inverse_table

/-- The cells of the table, row-major, as a list of index pairs; the Rust
nested `for` loops of `reverse_table` walk exactly this list. -/
def pairs (n m : Nat) : List (Nat × Nat) :=
  (List.range n).flatMap (fun i => (List.range m).map (fun j => (i, j)))

/-- The body of the `reverse_table` double loop, as a single update keyed by
the cell `(i, j)`; `reverse_table_eq_pairs` identifies the two. -/
def rev_upd (table : List (List Nat)) (p : Nat × Nat)
    (result : List (List Nat)) : List (List Nat) :=
  let bits := num2bits (getEntry table p.1 p.2) (max_bits table)
  let outer_bits := bits.take (ceil_log table.length)
  let middle_bits := bits.drop (ceil_log table.length)
  result.set (bits2num outer_bits)
    ((result.getD (bits2num outer_bits) []).set (bits2num middle_bits)
      ((p.1 <<< ceil_log (table.headD []).length) ||| p.2))

/-- The table read as a function on `b`-bit inputs, exactly as the
specification describes the transform: the input's top `ceil_log n` bits
select the row, its low `ceil_log m` bits select the column. -/
def tableFun (table : List (List Nat)) (x : Nat) : Nat :=
  getEntry table (x / 2 ^ ceil_log (table.headD []).length)
    (x % 2 ^ ceil_log (table.headD []).length)

/-- The specification's documented, unchecked precondition on an SBox table:
viewed as a function on `b`-bit values (`b = ceil_log n + ceil_log m`) it is
a bijection, stated as range preservation plus injectivity. -/
def TableBijective (table : List (List Nat)) : Prop :=
  (∀ x, x < 2 ^ (ceil_log table.length + ceil_log (table.headD []).length) →
    tableFun table x <
      2 ^ (ceil_log table.length + ceil_log (table.headD []).length)) ∧
  (∀ x, x < 2 ^ (ceil_log table.length + ceil_log (table.headD []).length) →
    ∀ y, y < 2 ^ (ceil_log table.length + ceil_log (table.headD []).length) →
    tableFun table x = tableFun table y → x = y)

end SBox

theorem ceil_log_go_congr :
    ∀ fuel fuel' num, num ≤ fuel → num ≤ fuel' →
      ceil_log_go fuel num = ceil_log_go fuel' num := by
  intro fuel
  induction fuel with
  | zero =>
      intro fuel' num h h'
      have hz : num = 0 := Nat.le_zero.1 h
      subst hz
      cases fuel' <;> simp [ceil_log_go]
  | succ f ih =>
      intro fuel' num h h'
      by_cases h1 : 1 < num
      · have hf' : fuel' ≠ 0 := by omega
        obtain ⟨f', rfl⟩ := Nat.exists_eq_succ_of_ne_zero hf'
        simp only [ceil_log_go, if_pos h1]
        have hr : num / 2 + num % 2 ≤ f := by omega
        have hr' : num / 2 + num % 2 ≤ f' := by omega
        rw [ih f' _ hr hr']
      · cases fuel' with
        | zero =>
            have hz : num = 0 := Nat.le_zero.1 h'
            subst hz
            simp [ceil_log_go]
        | succ f' => simp [ceil_log_go, if_neg h1]

/-- The defining recurrence of `SBox::ceil_log`, exactly as in the source:
while `num > 1`, replace `num` by `⌈num / 2⌉` and count one step. -/
theorem ceil_log_eq (num : Nat) :
    ceil_log num = if 1 < num then ceil_log (num / 2 + num % 2) + 1 else 0 := by
  by_cases h1 : 1 < num
  · obtain ⟨k, rfl⟩ := Nat.exists_eq_succ_of_ne_zero (by omega : num ≠ 0)
    simp only [ceil_log, ceil_log_go, if_pos h1]
    have hm : (k + 1) / 2 + (k + 1) % 2 ≤ k := by omega
    rw [ceil_log_go_congr k _ _ hm le_rfl]
  · rw [if_neg h1]
    have h2 : num = 0 ∨ num = 1 := by omega
    rcases h2 with rfl | rfl <;> rfl

theorem ceil_log_of_le_one {n : Nat} (h : n ≤ 1) : ceil_log n = 0 := by
  rw [ceil_log_eq]
  simp [Nat.not_lt.2 h]

theorem ceil_log_of_gt_one {n : Nat} (h : 1 < n) :
    ceil_log n = ceil_log (n / 2 + n % 2) + 1 := by
  rw [ceil_log_eq]
  simp [h]

/-- `2 ^ ceil_log n` is at least `n`, for every `n` (including `0`). -/
theorem le_pow_ceil_log (n : Nat) : n ≤ 2 ^ ceil_log n := by
  induction n using Nat.strong_induction_on with
  | _ n ih =>
      by_cases h : 1 < n
      · rw [ceil_log_of_gt_one h]
        have hlt : n / 2 + n % 2 < n := by omega
        have hih := ih _ hlt
        rw [Nat.pow_succ]
        omega
      · rw [ceil_log_of_le_one (by omega)]
        simpa using (by omega : n ≤ 1)

/-- `ceil_log n` is at most any `c` with `n ≤ 2 ^ c`: together with
`le_pow_ceil_log` this makes it the minimal such exponent. -/
theorem ceil_log_le : ∀ n c : Nat, n ≤ 2 ^ c → ceil_log n ≤ c := by
  intro n
  induction n using Nat.strong_induction_on with
  | _ n ih =>
      intro c h
      by_cases h1 : 1 < n
      · cases c with
        | zero =>
            simp at h
            omega
        | succ c' =>
            rw [ceil_log_of_gt_one h1]
            rw [Nat.pow_succ] at h
            exact Nat.succ_le_succ (ih _ (by omega) c' (by omega))
      · rw [ceil_log_of_le_one (by omega)]
        omega

theorem ceil_log_two_pow (a : Nat) : ceil_log (2 ^ a) = a := by
  refine Nat.le_antisymm (ceil_log_le _ _ le_rfl) ?_
  have h := le_pow_ceil_log (2 ^ a)
  exact (Nat.pow_le_pow_iff_right (by norm_num)).1 h

theorem ceil_log_le_of_lt_pow {x k : Nat} (h : x < 2 ^ k) : ceil_log x ≤ k :=
  ceil_log_le _ _ (Nat.le_of_lt h)

theorem ceil_log_mono {x y : Nat} (h : x ≤ y) : ceil_log x ≤ ceil_log y :=
  ceil_log_le _ _ (Nat.le_trans h (le_pow_ceil_log y))

/-- The only value whose `ceil_log` is `1` is `2`. -/
theorem eq_two_of_ceil_log_eq_one {x : Nat} (h : ceil_log x = 1) : x = 2 := by
  have h1 : x ≤ 2 ^ 1 := h ▸ le_pow_ceil_log x
  have h2 : ¬ x ≤ 1 := fun hle => by rw [ceil_log_of_le_one hle] at h; omega
  omega

/-- For `k ≥ 2`, `ceil_log (2 ^ k - 1) = k`. -/
theorem ceil_log_pred_pow {k : Nat} (h : 2 ≤ k) : ceil_log (2 ^ k - 1) = k := by
  have hk1 : 2 ^ (k - 1) * 2 = 2 ^ k := by
    rw [← Nat.pow_succ]
    congr 1
    omega
  have h4 : 4 ≤ 2 ^ k := by
    calc (4 : Nat) = 2 ^ 2 := by norm_num
    _ ≤ 2 ^ k := Nat.pow_le_pow_right (by norm_num) h
  refine Nat.le_antisymm (ceil_log_le _ _ (by omega)) ?_
  by_contra hlt
  have hle : ceil_log (2 ^ k - 1) ≤ k - 1 := by omega
  have := Nat.le_trans (le_pow_ceil_log (2 ^ k - 1))
    (Nat.pow_le_pow_right (by norm_num) hle)
  omega

theorem length_num2bitsLSB : ∀ (k num : Nat), (num2bitsLSB num k).length = k
  | 0, _ => rfl
  | k + 1, num => by simp [num2bitsLSB, length_num2bitsLSB k]

@[simp] theorem length_num2bits (num k : Nat) : (num2bits num k).length = k := by
  simp [num2bits, length_num2bitsLSB]

theorem num2bits_succ (x k : Nat) :
    num2bits x (k + 1) = num2bits (x / 2) k ++ [decide (x % 2 = 1)] := by
  simp [num2bits, num2bitsLSB]

@[simp] theorem num2bits_zero (x : Nat) : num2bits x 0 = [] := rfl

theorem msbValue_append (l₁ l₂ : List Bool) :
    msbValue (l₁ ++ l₂) = msbValue l₁ * 2 ^ l₂.length + msbValue l₂ := by
  induction l₁ with
  | nil => simp [msbValue]
  | cons b rest ih =>
      rw [List.cons_append]
      show b.toNat * 2 ^ (rest ++ l₂).length + msbValue (rest ++ l₂) = _
      rw [ih, List.length_append]
      show _ = (b.toNat * 2 ^ rest.length + msbValue rest) * 2 ^ l₂.length + msbValue l₂
      ring

theorem msbValue_concat (l : List Bool) (b : Bool) :
    msbValue (l ++ [b]) = 2 * msbValue l + b.toNat := by
  rw [msbValue_append]
  simp [msbValue]
  ring

theorem msbValue_lt (l : List Bool) : msbValue l < 2 ^ l.length := by
  induction l with
  | nil => simp [msbValue]
  | cons b rest ih =>
      have hb : b.toNat ≤ 1 := Bool.toNat_le b
      simp only [msbValue, List.length_cons, Nat.pow_succ]
      nlinarith

theorem bits2num_foldl (l : List Bool) :
    ∀ r : Nat, r < 2 ^ 32 →
      l.foldl (fun result bit => ((result <<< 1) % 2 ^ 32) ||| bit.toNat) r
        = (r * 2 ^ l.length + msbValue l) % 2 ^ 32 := by
  induction l with
  | nil =>
      intro r hr
      simp only [List.foldl_nil, List.length_nil, msbValue, Nat.pow_zero,
        Nat.mul_one, Nat.add_zero]
      exact (Nat.mod_eq_of_lt hr).symm
  | cons b rest ih =>
      intro r hr
      have hstep : ((r <<< 1) % 2 ^ 32) ||| b.toNat = 2 * (r % 2 ^ 31) + b.toNat := by
        have h1 : (r <<< 1) % 2 ^ 32 = 2 ^ 1 * (r % 2 ^ 31) := by
          have h0 : r <<< 1 = 2 * r := by
            rw [Nat.shiftLeft_eq]
            ring
          rw [h0]
          have h2 : (2 : Nat) ^ 32 = 2 * 2 ^ 31 := by norm_num
          rw [h2, Nat.mul_mod_mul_left]
          norm_num
        rw [h1, ← Nat.mul_add_lt_is_or (by cases b <;> simp : b.toNat < 2 ^ 1)]
      have hlt : 2 * (r % 2 ^ 31) + b.toNat < 2 ^ 32 := by
        have h1 : r % 2 ^ 31 < 2 ^ 31 := Nat.mod_lt _ (by norm_num)
        have hb : b.toNat ≤ 1 := Bool.toNat_le b
        have h2 : (2 : Nat) ^ 32 = 2 * 2 ^ 31 := by norm_num
        omega
      simp only [List.foldl_cons, hstep, ih _ hlt]
      have hmodeq : (2 * (r % 2 ^ 31) + b.toNat) * 2 ^ rest.length + msbValue rest
          ≡ (2 * r + b.toNat) * 2 ^ rest.length + msbValue rest [MOD 2 ^ 32] := by
        have h1 : 2 * (r % 2 ^ 31) ≡ 2 * r [MOD 2 * 2 ^ 31] :=
          Nat.ModEq.mul_left' 2 (Nat.mod_modEq r (2 ^ 31))
        have h2 : (2 : Nat) ^ 32 = 2 * 2 ^ 31 := by norm_num
        rw [h2]
        exact ((h1.add_right b.toNat).mul_right _).add_right _
      have harith : (2 * r + b.toNat) * 2 ^ rest.length + msbValue rest
          = r * 2 ^ (b :: rest).length + msbValue (b :: rest) := by
        simp only [List.length_cons, msbValue, Nat.pow_succ]
        ring
      rw [hmodeq, harith]

/-- `bits2num` computes the MSB-first value of the bit vector modulo `2^32`. -/
theorem bits2num_eq_msbValue_mod (l : List Bool) :
    bits2num l = msbValue l % 2 ^ 32 := by
  have := bits2num_foldl l 0 (by norm_num)
  simpa [bits2num] using this

theorem bits2num_eq_msbValue {l : List Bool} (h : l.length ≤ 32) :
    bits2num l = msbValue l := by
  rw [bits2num_eq_msbValue_mod]
  exact Nat.mod_eq_of_lt (lt_of_lt_of_le (msbValue_lt l)
    (Nat.pow_le_pow_right (by norm_num) h))

/-- Decoding the MSB-first value of a bit vector at its own length gives the
vector back; this holds at every length since `msbValue` is exact. -/
theorem num2bits_msbValue (l : List Bool) : num2bits (msbValue l) l.length = l := by
  induction l using List.reverseRecOn with
  | nil => rfl
  | append_singleton ys b ih =>
      have hlen : (ys ++ [b]).length = ys.length + 1 := by simp
      rw [hlen, msbValue_concat, num2bits_succ]
      have hb : b.toNat ≤ 1 := Bool.toNat_le b
      have hdiv : (2 * msbValue ys + b.toNat) / 2 = msbValue ys := by omega
      have hmod : (2 * msbValue ys + b.toNat) % 2 = b.toNat := by omega
      rw [hdiv, hmod, ih]
      cases b <;> simp

theorem msbValue_num2bits : ∀ (k x : Nat), msbValue (num2bits x k) = x % 2 ^ k := by
  intro k
  induction k with
  | zero => intro x; simp [msbValue, Nat.mod_one]
  | succ k ih =>
      intro x
      rw [num2bits_succ, msbValue_concat, ih]
      have htn : (decide (x % 2 = 1)).toNat = x % 2 := by
        rcases Nat.mod_two_eq_zero_or_one x with h | h <;> simp [h]
      rw [htn]
      have : (2 : Nat) ^ (k + 1) = 2 * 2 ^ k := by ring
      rw [this, Nat.mod_mul]
      omega

theorem getD_set_self {α : Type} {l : List α} {i : Nat} (h : i < l.length)
    (a d : α) : (l.set i a).getD i d = a := by
  simp [List.getD_eq_getElem?_getD, List.getElem?_set_self h]

theorem getD_set_ne {α : Type} {l : List α} {i j : Nat} (h : i ≠ j)
    (a d : α) : (l.set i a).getD j d = l.getD j d := by
  simp [List.getD_eq_getElem?_getD, List.getElem?_set_ne h]

theorem getD_replicate_self {α : Type} (n k : Nat) (d : α) :
    (List.replicate n d).getD k d = d := by
  simp only [List.getD_eq_getElem?_getD, List.getElem?_replicate]
  split <;> rfl

theorem getD_of_lt {α : Type} (l : List α) {i : Nat} (h : i < l.length) (d : α) :
    l.getD i d = l[i] := by
  simp [List.getD_eq_getElem?_getD, List.getElem?_eq_getElem h]

theorem ext_getD {α : Type} {l₁ l₂ : List α} (d : α)
    (hlen : l₁.length = l₂.length)
    (h : ∀ k, k < l₁.length → l₁.getD k d = l₂.getD k d) : l₁ = l₂ := by
  refine List.ext_getElem hlen (fun k h1 h2 => ?_)
  have := h k h1
  rwa [getD_of_lt _ h1, getD_of_lt _ h2] at this

theorem and_two_pow_eq_zero_iff (x k : Nat) :
    x &&& 2 ^ k = 0 ↔ x.testBit k = false := by
  constructor
  · intro h
    have h2 := congrArg (fun y => Nat.testBit y k) h
    simpa [Nat.testBit_and, Nat.testBit_two_pow_self] using h2
  · intro h
    apply Nat.eq_of_testBit_eq
    intro i
    simp only [Nat.testBit_and, Nat.zero_testBit]
    by_cases hik : i = k
    · subst hik
      simp [h]
    · simp [Nat.testBit_two_pow_of_ne (Ne.symm hik)]

section Scatter

variable {σ ι : Type}

/-- A state invariant is preserved by a left fold of updates. -/
theorem foldl_preserves (P : σ → Prop) (upd : ι → σ → σ) :
    ∀ (l : List ι) (s : σ), P s → (∀ i ∈ l, ∀ t, P t → P (upd i t)) →
      P (l.foldl (fun t i => upd i t) s) := by
  intro l
  induction l with
  | nil => intro s hs _; exact hs
  | cons a l ih =>
      intro s hs hupd
      exact ih _ (hupd a (by simp) s hs) (fun i hi => hupd i (by simp [hi]))

variable {α : Type} (P : σ → Prop) (upd : ι → σ → σ) (red : σ → α)

/-- Reading a component that none of the folded updates touches gives the
initial value. -/
theorem foldl_read_miss :
    ∀ (l : List ι) (s : σ), P s →
      (∀ i ∈ l, ∀ t, P t → P (upd i t)) →
      (∀ i ∈ l, ∀ t, P t → red (upd i t) = red t) →
      red (l.foldl (fun t i => upd i t) s) = red s := by
  intro l
  induction l with
  | nil => intro s _ _ _; rfl
  | cons a l ih =>
      intro s hs hP hmiss
      rw [List.foldl_cons,
        ih _ (hP a (by simp) s hs) (fun i hi => hP i (by simp [hi]))
          (fun i hi => hmiss i (by simp [hi])),
        hmiss a (by simp) s hs]

/-- Reading the component that exactly one folded update writes gives the
written value. -/
theorem foldl_read_hit (v : α) :
    ∀ (l : List ι) (s : σ) (i : ι), P s →
      (∀ j ∈ l, ∀ t, P t → P (upd j t)) →
      i ∈ l →
      (∀ t, P t → red (upd i t) = v) →
      (∀ j ∈ l, j ≠ i → ∀ t, P t → red (upd j t) = red t) →
      red (l.foldl (fun t j => upd j t) s) = v := by
  intro l
  induction l with
  | nil =>
      intro s i _ _ hmem _ _
      exact absurd hmem (List.not_mem_nil i)
  | cons a l ih =>
      intro s i hs hP hmem hhit hmiss
      rw [List.foldl_cons]
      by_cases hmem' : i ∈ l
      · exact ih _ i (hP a (by simp) s hs) (fun j hj => hP j (by simp [hj])) hmem'
          hhit (fun j hj hji => hmiss j (by simp [hj]) hji)
      · have hai : a = i := by
          rcases List.mem_cons.1 hmem with h | h
          · exact h.symm
          · exact absurd h hmem'
        subst hai
        rw [foldl_read_miss P upd red l _ (hP a (by simp) s hs)
          (fun j hj => hP j (by simp [hj]))
          (fun j hj => hmiss j (by simp [hj]) (fun hja => hmem' (hja ▸ hj)))]
        exact hhit s hs

/-- Every readable component of a fold of updates is either its initial
value or a value some update put there. -/
theorem foldl_read_cases (Q : α → Prop) :
    ∀ (l : List ι) (s : σ), P s →
      (∀ i ∈ l, ∀ t, P t → P (upd i t)) →
      (∀ i ∈ l, ∀ t, P t → red (upd i t) = red t ∨ Q (red (upd i t))) →
      red (l.foldl (fun t i => upd i t) s) = red s ∨
        Q (red (l.foldl (fun t i => upd i t) s)) := by
  intro l
  induction l with
  | nil => intro s _ _ _; exact Or.inl rfl
  | cons a l ih =>
      intro s hs hP hcases
      rw [List.foldl_cons]
      rcases ih _ (hP a (by simp) s hs) (fun i hi => hP i (by simp [hi]))
        (fun i hi => hcases i (by simp [hi])) with h | h
      · rcases hcases a (by simp) s hs with h2 | h2
        · exact Or.inl (h.trans h2)
        · exact Or.inr (h ▸ h2)
      · exact Or.inr h

/-- The last update of a fold is never overwritten. -/
theorem foldl_read_last (v : α) (l : List ι) (s : σ) (i : ι) (hs : P s)
    (hP : ∀ j ∈ l, ∀ t, P t → P (upd j t))
    (hhit : ∀ t, P t → red (upd i t) = v) :
    red ((l ++ [i]).foldl (fun t j => upd j t) s) = v := by
  rw [List.foldl_append]
  exact hhit _ (foldl_preserves P upd l s hs hP)

end Scatter

theorem num2bits_add (x a c : Nat) :
    num2bits x (a + c) = num2bits (x / 2 ^ c) a ++ num2bits (x % 2 ^ c) c := by
  induction c generalizing x with
  | zero => simp [Nat.mod_one]
  | succ c ih =>
      rw [show a + (c + 1) = (a + c) + 1 from rfl, num2bits_succ, ih, num2bits_succ,
        List.append_assoc]
      have h1 : x / 2 / 2 ^ c = x / 2 ^ (c + 1) := by
        rw [Nat.div_div_eq_div_mul, ← Nat.pow_succ']
      have h2 : x / 2 % 2 ^ c = x % 2 ^ (c + 1) / 2 := by
        rw [Nat.pow_succ', Nat.mod_mul_right_div_self]
      have h3 : x % 2 = x % 2 ^ (c + 1) % 2 := by
        refine (Nat.mod_mod_of_dvd x ⟨2 ^ c, ?_⟩).symm
        rw [Nat.pow_succ']
      rw [h1, h2, h3]

theorem foldl_max_le_iff {α : Type} (f : α → Nat) :
    ∀ (l : List α) (acc K : Nat),
      l.foldl (fun a x => Nat.max a (f x)) acc ≤ K ↔
        acc ≤ K ∧ ∀ x ∈ l, f x ≤ K := by
  intro l
  induction l with
  | nil => simp
  | cons a l ih =>
      intro acc K
      rw [List.foldl_cons, ih]
      simp only [Nat.max_le, List.mem_cons]
      constructor
      · rintro ⟨⟨h1, h2⟩, h3⟩
        exact ⟨h1, fun x hx => by rcases hx with rfl | hx; exact h2; exact h3 x hx⟩
      · rintro ⟨h1, h2⟩
        exact ⟨⟨h1, h2 a (Or.inl rfl)⟩, fun x hx => h2 x (Or.inr hx)⟩

theorem le_foldl_max {α : Type} (f : α → Nat) (l : List α) (acc : Nat) :
    acc ≤ l.foldl (fun a x => Nat.max a (f x)) acc ∧
      ∀ x ∈ l, f x ≤ l.foldl (fun a x => Nat.max a (f x)) acc :=
  (foldl_max_le_iff f l acc _).1 (Nat.le_refl _)

theorem foldl_max_cases {α : Type} (f : α → Nat) :
    ∀ (l : List α) (acc : Nat),
      l.foldl (fun a x => Nat.max a (f x)) acc = acc ∨
        ∃ x ∈ l, l.foldl (fun a x => Nat.max a (f x)) acc = f x := by
  intro l
  induction l with
  | nil => intro acc; exact Or.inl rfl
  | cons a l ih =>
      intro acc
      rw [List.foldl_cons]
      rcases ih (Nat.max acc (f a)) with h | ⟨x, hx, h⟩
      · rcases Nat.le_total acc (f a) with hm | hm
        · exact Or.inr ⟨a, by simp, h.trans (Nat.max_eq_right hm)⟩
        · exact Or.inl (h.trans (Nat.max_eq_left hm))
      · exact Or.inr ⟨x, by simp [hx], h⟩

namespace PBox

theorem is_permutation_go_iff :
    ∀ (l : List Nat) (used n : Nat),
      is_permutation_go n l used = true ↔
        ((∀ x ∈ l, 1 ≤ x ∧ x ≤ n) ∧ l.Nodup ∧
          ∀ x ∈ l, used.testBit (x - 1) = false) := by
  intro l
  induction l with
  | nil =>
      intro used n
      rw [show is_permutation_go n [] used = true from rfl]
      simp
  | cons num rest ih =>
      intro used n
      by_cases hbad : n < num ∨ num = 0
      · rw [is_permutation_go, if_pos (by simpa using hbad)]
        refine iff_of_false (by simp) ?_
        intro ⟨hbound, _, _⟩
        have := hbound num (by simp)
        omega
      · push_neg at hbad
        rw [is_permutation_go, if_neg (by simpa using hbad)]
        have hnum1 : 1 ≤ num := by omega
        rw [Nat.one_shiftLeft]
        by_cases hused : used.testBit (num - 1) = false
        · rw [if_neg (by simp [(and_two_pow_eq_zero_iff used (num - 1)).2 hused]),
            ih]
          constructor
          · rintro ⟨hbound, hnodup, hmask⟩
            have hnotin : num ∉ rest := by
              intro hmem
              have h1 := hmask num hmem
              rw [Nat.testBit_lor, Nat.testBit_two_pow_self] at h1
              simp at h1
            refine ⟨?_, List.nodup_cons.2 ⟨hnotin, hnodup⟩, ?_⟩
            · intro x hx
              rcases List.mem_cons.1 hx with rfl | hx'
              · omega
              · exact hbound x hx'
            · intro x hx
              rcases List.mem_cons.1 hx with rfl | hx'
              · exact hused
              · have h1 := hmask x hx'
                rw [Nat.testBit_lor] at h1
                exact (Bool.or_eq_false_iff.1 h1).1
          · rintro ⟨hbound, hnodup, hmask⟩
            have hnodup' := List.nodup_cons.1 hnodup
            refine ⟨fun x hx => hbound x (by simp [hx]), hnodup'.2, ?_⟩
            intro x hx
            have hx1 : 1 ≤ x := (hbound x (by simp [hx])).1
            rw [Nat.testBit_lor, hmask x (by simp [hx]),
              Nat.testBit_two_pow_of_ne (by
                intro heq
                exact hnodup'.1 (by
                  have : x = num := by omega
                  exact this ▸ hx))]
            rfl
        · rw [if_pos (by
            simp only [ne_eq, and_two_pow_eq_zero_iff]
            exact hused)]
          refine iff_of_false (by simp) ?_
          intro ⟨_, _, hmask⟩
          exact hused (hmask num (by simp))

/-- `PBox::is_permutation` succeeds exactly on sequences of length at most
32 whose entries are a duplicate-free subset of `{1, …, n}`. -/
theorem is_permutation_iff (perm : List Nat) :
    is_permutation perm = true ↔
      perm.length ≤ 32 ∧ (∀ x ∈ perm, 1 ≤ x ∧ x ≤ perm.length) ∧ perm.Nodup := by
  unfold is_permutation
  by_cases h32 : perm.length ≤ 32
  · rw [if_pos h32, is_permutation_go_iff]
    simp [h32]
  · rw [if_neg h32]
    simp [h32]

theorem permSpec_of_valid {perm : List Nat} (h : is_permutation perm = true) :
    PermSpec perm perm.length := by
  obtain ⟨-, hval, hnodup⟩ := (is_permutation_iff perm).1 h
  refine ⟨rfl, ?_, ?_⟩
  · intro i hi
    rw [getD_of_lt _ hi]
    exact hval _ (List.getElem_mem hi)
  · intro i j hi hj heq
    rw [getD_of_lt _ hi, getD_of_lt _ hj] at heq
    exact hnodup.getElem_inj_iff.1 heq

theorem valid_surj {perm : List Nat} (h : is_permutation perm = true)
    {x : Nat} (hx1 : 1 ≤ x) (hx2 : x ≤ perm.length) :
    ∃ i, i < perm.length ∧ perm.getD i 0 = x := by
  obtain ⟨-, hval, hnodup⟩ := (is_permutation_iff perm).1 h
  have hsub : perm.toFinset ⊆ Finset.Icc 1 perm.length := by
    intro y hy
    rw [List.mem_toFinset] at hy
    exact Finset.mem_Icc.2 (hval y hy)
  have hcard : (Finset.Icc 1 perm.length).card ≤ perm.toFinset.card := by
    rw [List.toFinset_card_of_nodup hnodup, Nat.card_Icc]
    omega
  have heq := Finset.eq_of_subset_of_card_le hsub hcard
  have hx : x ∈ perm.toFinset := by
    rw [heq]
    exact Finset.mem_Icc.2 ⟨hx1, hx2⟩
  rw [List.mem_toFinset] at hx
  obtain ⟨i, hi, hix⟩ := List.mem_iff_getElem.1 hx
  exact ⟨i, hi, by rw [getD_of_lt _ hi]; exact hix⟩

theorem length_reverse_permutation (perm : List Nat) :
    (reverse_permutation perm).length = perm.length := by
  exact foldl_preserves (fun s => s.length = perm.length)
    (fun i t => t.set (perm.getD i 0 - 1) (i + 1))
    (List.range perm.length) (List.replicate perm.length 0)
    (by simp)
    (fun i _ t ht => by simpa using ht)

theorem reverse_permutation_getD {perm : List Nat}
    (h : is_permutation perm = true) {i : Nat} (hi : i < perm.length) :
    (reverse_permutation perm).getD (perm.getD i 0 - 1) 0 = i + 1 := by
  obtain ⟨-, hval, hinj⟩ := permSpec_of_valid h
  refine foldl_read_hit (fun s => s.length = perm.length)
    (fun j t => t.set (perm.getD j 0 - 1) (j + 1))
    (fun s => s.getD (perm.getD i 0 - 1) 0) (i + 1)
    (List.range perm.length) (List.replicate perm.length 0) i
    (by simp)
    (fun j _ t ht => by simpa using ht)
    (List.mem_range.2 hi)
    (fun t ht => ?_)
    (fun j hj hji t ht => ?_)
  · refine getD_set_self ?_ _ _
    have := hval i hi
    omega
  · refine getD_set_ne ?_ _ _
    have hj' := List.mem_range.1 hj
    have h1 := hval i hi
    have h2 := hval j hj'
    intro heq
    exact hji (hinj j i hj' hi (by omega))

theorem reverse_permutation_exists {perm : List Nat}
    (h : is_permutation perm = true) {j : Nat} (hj : j < perm.length) :
    ∃ i, i < perm.length ∧ perm.getD i 0 = j + 1 ∧
      (reverse_permutation perm).getD j 0 = i + 1 := by
  obtain ⟨i, hi, hix⟩ := valid_surj h (by omega : 1 ≤ j + 1) (by omega)
  refine ⟨i, hi, hix, ?_⟩
  have := reverse_permutation_getD h hi
  rwa [hix, Nat.add_sub_cancel] at this

theorem permSpec_reverse {perm : List Nat} (h : is_permutation perm = true) :
    PermSpec (reverse_permutation perm) perm.length := by
  refine ⟨length_reverse_permutation perm, ?_, ?_⟩
  · intro j hj
    obtain ⟨i, hi, -, hrev⟩ := reverse_permutation_exists h hj
    omega
  · intro j j' hj hj' heq
    obtain ⟨i, hi, hix, hrev⟩ := reverse_permutation_exists h hj
    obtain ⟨i', hi', hix', hrev'⟩ := reverse_permutation_exists h hj'
    rw [hrev, hrev'] at heq
    have : i = i' := by omega
    subst this
    rw [hix] at hix'
    omega

theorem perm_of_reverse {perm : List Nat} (h : is_permutation perm = true)
    {j : Nat} (hj : j < perm.length) :
    perm.getD ((reverse_permutation perm).getD j 0 - 1) 0 = j + 1 := by
  obtain ⟨i, hi, hix, hrev⟩ := reverse_permutation_exists h hj
  rw [hrev, Nat.add_sub_cancel, hix]

theorem transform_go_eq_foldl (bits : List Bool) (perm : List Nat) :
    ∀ (l : List Nat) (result : List Bool), result.length = bits.length →
      (∀ i ∈ l, ∃ num, perm[i]? = some num ∧ num ≠ 0 ∧ num - 1 < bits.length) →
      transform_go bits perm l result =
        some (l.foldl
          (fun acc i => acc.set (perm.getD i 0 - 1) (bits.getD i false)) result) := by
  intro l
  induction l with
  | nil => intro result _ _; rfl
  | cons i rest ih =>
      intro result hlen hok
      obtain ⟨num, hnum, hnz, hbound⟩ := hok i (by simp)
      rw [show transform_go bits perm (i :: rest) result =
        match perm[i]? with
        | some num =>
            if num = 0 then none
            else if num - 1 < result.length then
              transform_go bits perm rest
                (result.set (num - 1) (bits.getD i false))
            else none
        | none => none from rfl]
      rw [hnum]
      show (if num = 0 then none
        else if num - 1 < result.length then
          transform_go bits perm rest (result.set (num - 1) (bits.getD i false))
        else none) = _
      rw [if_neg hnz, if_pos (by omega)]
      have hgetD : perm.getD i 0 = num := by
        simp [List.getD_eq_getElem?_getD, hnum]
      rw [List.foldl_cons, ih _ (by simpa using hlen) (fun j hj => hok j (by simp [hj])),
        hgetD]

theorem transform_spec (bits : List Bool) (perm : List Nat)
    (h : PermSpec perm bits.length) :
    ∃ w, transform bits perm = some w ∧ w.length = bits.length ∧
      ∀ i, i < bits.length →
        w.getD (perm.getD i 0 - 1) false = bits.getD i false := by
  obtain ⟨hlen, hval, hinj⟩ := h
  have hok : ∀ i ∈ List.range bits.length,
      ∃ num, perm[i]? = some num ∧ num ≠ 0 ∧ num - 1 < bits.length := by
    intro i hi
    have hi' := List.mem_range.1 hi
    have hib : i < perm.length := by omega
    refine ⟨perm[i], List.getElem?_eq_getElem hib, ?_, ?_⟩
    · have := hval i hi'
      rw [getD_of_lt _ hib] at this
      omega
    · have := hval i hi'
      rw [getD_of_lt _ hib] at this
      omega
  rw [transform, transform_go_eq_foldl bits perm _ _ (by simp) hok]
  refine ⟨_, rfl, ?_, ?_⟩
  · exact foldl_preserves (fun s => s.length = bits.length)
      (fun i t => t.set (perm.getD i 0 - 1) (bits.getD i false))
      (List.range bits.length) (List.replicate bits.length false)
      (by simp)
      (fun i _ t ht => by simpa using ht)
  · intro i hi
    refine foldl_read_hit (fun s => s.length = bits.length)
      (fun j t => t.set (perm.getD j 0 - 1) (bits.getD j false))
      (fun s => s.getD (perm.getD i 0 - 1) false) (bits.getD i false)
      (List.range bits.length) (List.replicate bits.length false) i
      (by simp)
      (fun j _ t ht => by simpa using ht)
      (List.mem_range.2 hi)
      (fun t ht => ?_)
      (fun j hj hji t ht => ?_)
    · refine getD_set_self ?_ _ _
      have := hval i hi
      omega
    · refine getD_set_ne ?_ _ _
      have hj' := List.mem_range.1 hj
      have h1 := hval i hi
      have h2 := hval j hj'
      intro heq
      exact hji (hinj j i hj' hi (by omega))

/-- Applying `transform` with `p` and then with `q` is the identity whenever
`q` undoes `p` position-wise (`q[p[i] - 1] = i + 1`). -/
theorem transform_transform (v : List Bool) (p q : List Nat)
    (hp : PermSpec p v.length) (hq : PermSpec q v.length)
    (hqp : ∀ i, i < v.length → q.getD (p.getD i 0 - 1) 0 = i + 1) :
    (transform v p).bind (fun w => transform w q) = some v := by
  obtain ⟨w, hw, hwlen, hwget⟩ := transform_spec v p hp
  obtain ⟨u, hu, hulen, huget⟩ := transform_spec w q (hwlen ▸ hq)
  rw [hw, show ((some w).bind fun t => transform t q) = transform w q from rfl, hu]
  congr 1
  refine ext_getD false (by omega) ?_
  intro k hk
  have hk' : k < v.length := by omega
  have hpk := hp.2.1 k hk'
  have h1 := huget (p.getD k 0 - 1) (by omega)
  rw [hqp k hk', Nat.add_sub_cancel] at h1
  rw [h1, hwget k hk']

theorem pbox_new_eq_ok {perm : List Nat} {p : PBox} (h : new perm = Except.ok p) :
    is_permutation perm = true ∧ p.permutation = perm ∧
      p.inverse_permutation = reverse_permutation perm := by
  unfold new at h
  by_cases hv : is_permutation perm
  · rw [if_pos hv] at h
    injection h with h
    subst h
    exact ⟨hv, rfl, rfl⟩
  · rw [if_neg hv] at h
    simp at h

theorem transform_go_none_of_missing (bits : List Bool) (perm : List Nat) :
    ∀ (l : List Nat) (result : List Bool),
      (∃ i ∈ l, perm[i]? = none) →
      transform_go bits perm l result = none := by
  intro l
  induction l with
  | nil =>
      intro result hex
      obtain ⟨i, hi, -⟩ := hex
      exact absurd hi (List.not_mem_nil i)
  | cons a rest ih =>
      intro result hex
      simp only [transform_go]
      cases hpa : perm[a]? with
      | none => rfl
      | some num =>
          show (if num = 0 then none
            else if num - 1 < result.length then
              transform_go bits perm rest (result.set (num - 1) (bits.getD a false))
            else none) = none
          by_cases h0 : num = 0
          · rw [if_pos h0]
          · rw [if_neg h0]
            by_cases hb : num - 1 < result.length
            · rw [if_pos hb]
              refine ih _ ?_
              obtain ⟨i, hi, hnone⟩ := hex
              rcases List.mem_cons.1 hi with rfl | hi'
              · rw [hpa] at hnone
                exact absurd hnone (by simp)
              · exact ⟨i, hi', hnone⟩
            · rw [if_neg hb]

theorem transform_none_of_long {bits : List Bool} {perm : List Nat}
    (h : perm.length < bits.length) : transform bits perm = none :=
  transform_go_none_of_missing bits perm _ _
    ⟨perm.length, List.mem_range.2 h, List.getElem?_eq_none Nat.le.refl⟩

end PBox

/-- C1: for every `PBox` built successfully by `PBox::new` from a sequence
of length `n` and every bit vector `v` of length `n`, decrypting the
encryption of `v` gives back exactly `v`. -/
theorem claim_C1_pbox_decrypt_encrypt (perm : List Nat) (p : PBox) (v : List Bool)
    (hnew : PBox.new perm = Except.ok p) (hlen : v.length = perm.length) :
    (p.encrypt v).bind p.decrypt = some v := by
  obtain ⟨hv, hperm, hinv⟩ := PBox.pbox_new_eq_ok hnew
  show (PBox.transform v p.permutation).bind
    (fun w => PBox.transform w p.inverse_permutation) = some v
  rw [hperm, hinv]
  refine PBox.transform_transform v perm (PBox.reverse_permutation perm) ?_ ?_ ?_
  · rw [hlen]
    exact PBox.permSpec_of_valid hv
  · rw [hlen]
    exact PBox.permSpec_reverse hv
  · intro i hi
    exact PBox.reverse_permutation_getD hv (by omega)

/-- Witness for C1: the valid permutation `[2, 1]` on input `[true, false]`. -/
theorem claim_C1_witness :
    ((PBox.mk [2, 1] [2, 1]).encrypt [true, false]).bind
      (PBox.mk [2, 1] [2, 1]).decrypt = some [true, false] :=
  claim_C1_pbox_decrypt_encrypt [2, 1] ⟨[2, 1], [2, 1]⟩ [true, false] rfl rfl

/-- C10: for every `PBox` built successfully by `PBox::new` from a sequence
of length `n` and every bit vector `v` of length `n`, encrypting the
decryption of `v` also gives back exactly `v` (the round trip in the other
order). -/
theorem claim_C10_pbox_encrypt_decrypt (perm : List Nat) (p : PBox) (v : List Bool)
    (hnew : PBox.new perm = Except.ok p) (hlen : v.length = perm.length) :
    (p.decrypt v).bind p.encrypt = some v := by
  obtain ⟨hv, hperm, hinv⟩ := PBox.pbox_new_eq_ok hnew
  show (PBox.transform v p.inverse_permutation).bind
    (fun w => PBox.transform w p.permutation) = some v
  rw [hperm, hinv]
  refine PBox.transform_transform v (PBox.reverse_permutation perm) perm ?_ ?_ ?_
  · rw [hlen]
    exact PBox.permSpec_reverse hv
  · rw [hlen]
    exact PBox.permSpec_of_valid hv
  · intro i hi
    exact PBox.perm_of_reverse hv (by omega)

/-- Witness for C10: the valid permutation `[2, 1]` on input `[false, true]`. -/
theorem claim_C10_witness :
    ((PBox.mk [2, 1] [2, 1]).decrypt [false, true]).bind
      (PBox.mk [2, 1] [2, 1]).encrypt = some [false, true] :=
  claim_C10_pbox_encrypt_decrypt [2, 1] ⟨[2, 1], [2, 1]⟩ [false, true] rfl rfl

/-- C3 (amended): the transforms perform no input-length validation and no
`InvalidInputLength` error exists; on any input strictly longer than the
permutation, both `PBox::encrypt` and `PBox::decrypt` index the permutation
out of bounds, i.e. panic (`none`), instead of returning an error value. -/
theorem claim_C3_amended (perm : List Nat) (p : PBox) (v : List Bool)
    (hnew : PBox.new perm = Except.ok p) (hlen : perm.length < v.length) :
    p.encrypt v = none ∧ p.decrypt v = none := by
  obtain ⟨hv, hperm, hinv⟩ := PBox.pbox_new_eq_ok hnew
  constructor
  · show PBox.transform v p.permutation = none
    rw [hperm]
    exact PBox.transform_none_of_long hlen
  · show PBox.transform v p.inverse_permutation = none
    rw [hinv]
    refine PBox.transform_none_of_long ?_
    rw [PBox.length_reverse_permutation]
    exact hlen

/-- Witness for the amended C3: the valid one-element permutation `[1]` with
the two-bit input `[true, true]`. -/
theorem claim_C3_amended_witness :
    (PBox.mk [1] [1]).encrypt [true, true] = none ∧
      (PBox.mk [1] [1]).decrypt [true, true] = none :=
  claim_C3_amended [1] ⟨[1], [1]⟩ [true, true] rfl (by decide)

/-- C7 (amended): `PBox::new` returns a valid `PBox` exactly when the input
has length at most 32 (the empty sequence included) and its values are a
bijection on `{1, …, n}`; in every other case it returns the
`InvalidPermutation` error. -/
theorem claim_C7_pbox_new_iff (perm : List Nat) :
    (PBox.new perm = Except.ok ⟨perm, PBox.reverse_permutation perm⟩ ↔
      perm.length ≤ 32 ∧ (∀ x ∈ perm, 1 ≤ x ∧ x ≤ perm.length) ∧ perm.Nodup) ∧
    (PBox.new perm = Except.error "invalid permutation" ↔
      ¬(perm.length ≤ 32 ∧ (∀ x ∈ perm, 1 ≤ x ∧ x ≤ perm.length) ∧ perm.Nodup)) := by
  by_cases hv : PBox.is_permutation perm
  · have hok : PBox.new perm = Except.ok ⟨perm, PBox.reverse_permutation perm⟩ := by
      unfold PBox.new
      rw [if_pos hv]
    have hprop := (PBox.is_permutation_iff perm).1 hv
    refine ⟨iff_of_true hok hprop, iff_of_false ?_ (by tauto)⟩
    rw [hok]
    simp
  · have herr : PBox.new perm = Except.error "invalid permutation" := by
      unfold PBox.new
      rw [if_neg hv]
    have hprop : ¬(perm.length ≤ 32 ∧ (∀ x ∈ perm, 1 ≤ x ∧ x ≤ perm.length) ∧
        perm.Nodup) := fun hc => hv ((PBox.is_permutation_iff perm).2 hc)
    refine ⟨iff_of_false ?_ hprop, iff_of_true herr hprop⟩
    rw [herr]
    simp

/-- C7 counterexample: the claim requires `1 ≤ n`, but `PBox::new` accepts
the empty sequence and returns a valid (empty) `PBox` rather than an
`InvalidPermutation` error. -/
theorem claim_C7_counterexample :
    PBox.new ([] : List Nat) = Except.ok ⟨[], []⟩ ∧ ¬(1 ≤ ([] : List Nat).length) :=
  ⟨rfl, by decide⟩

namespace SBox

theorem check_table_iff (table : List (List Nat)) :
    check_table table = true ↔
      (table.length ≠ 0 ∧ table.length = 1 <<< ceil_log table.length ∧
        (table.headD []).length ≠ 0 ∧
        (table.headD []).length = 1 <<< ceil_log (table.headD []).length ∧
        (∀ row ∈ table, row.length = (table.headD []).length) ∧
        max_bits table =
          ceil_log table.length + ceil_log (table.headD []).length) := by
  simp only [check_table]
  split_ifs with h1 h2 h3 h4
  · exact iff_of_false (by simp) (by tauto)
  · exact iff_of_false (by simp) (by tauto)
  · refine iff_of_false (by simp) ?_
    rintro ⟨-, -, -, -, hall, -⟩
    obtain ⟨row, hrow, hne⟩ := h3
    exact hne (hall row hrow)
  · exact iff_of_false (by simp) (by tauto)
  · push_neg at h1 h2 h3 h4
    exact iff_of_true rfl ⟨h1.1, h1.2, h2.1, h2.2, h3, h4⟩

theorem check_table_spec {table : List (List Nat)} (h : check_table table = true) :
    table.length = 2 ^ ceil_log table.length ∧
      (∀ row ∈ table,
        row.length = 2 ^ ceil_log (table.headD []).length) ∧
      (table.headD []).length = 2 ^ ceil_log (table.headD []).length ∧
      max_bits table = ceil_log table.length + ceil_log (table.headD []).length := by
  obtain ⟨hn0, hn, hm0, hm, hrows, hmb⟩ := (check_table_iff table).1 h
  rw [Nat.one_shiftLeft] at hn hm
  exact ⟨hn, fun row hrow => (hrows row hrow).trans hm, hm, hmb⟩

theorem max_bits_eq_flatten (table : List (List Nat)) :
    max_bits table =
      (table.flatten).foldl (fun acc el => Nat.max acc (ceil_log el)) 0 := by
  rw [max_bits, List.foldl_flatten]

theorem max_bits_le_iff (table : List (List Nat)) (K : Nat) :
    max_bits table ≤ K ↔ ∀ row ∈ table, ∀ e ∈ row, ceil_log e ≤ K := by
  rw [max_bits_eq_flatten, foldl_max_le_iff]
  simp only [Nat.zero_le, true_and, List.mem_flatten]
  constructor
  · intro h row hrow e he
    exact h e ⟨row, hrow, he⟩
  · rintro h e ⟨row, hrow, he⟩
    exact h row hrow e he

theorem le_max_bits_of_mem {table : List (List Nat)} {row : List Nat} {e : Nat}
    (hrow : row ∈ table) (he : e ∈ row) : ceil_log e ≤ max_bits table := by
  rw [max_bits_eq_flatten]
  exact (le_foldl_max _ _ _).2 e (List.mem_flatten.2 ⟨row, hrow, he⟩)

theorem max_bits_cases (table : List (List Nat)) :
    max_bits table = 0 ∨
      ∃ row ∈ table, ∃ e ∈ row, max_bits table = ceil_log e := by
  rw [max_bits_eq_flatten]
  rcases foldl_max_cases ceil_log table.flatten 0 with h | ⟨e, he, h⟩
  · exact Or.inl h
  · obtain ⟨row, hrow, he'⟩ := List.mem_flatten.1 he
    exact Or.inr ⟨row, hrow, e, he', h⟩

theorem foldl_pairs {σ : Type} (f : σ → Nat × Nat → σ) (n m : Nat) (s : σ) :
    (pairs n m).foldl f s =
      (List.range n).foldl
        (fun t i => (List.range m).foldl (fun u j => f u (i, j)) t) s := by
  induction n generalizing s with
  | zero => rfl
  | succ n ih =>
      rw [pairs, List.range_succ, List.flatMap_append, List.foldl_append]
      rw [show (List.range n).flatMap
        (fun i => (List.range m).map (fun j => (i, j))) = pairs n m from rfl]
      rw [ih, List.foldl_append]
      simp only [List.flatMap_cons, List.flatMap_nil, List.append_nil,
        List.foldl_map, List.foldl_cons, List.foldl_nil]

theorem mem_pairs {n m : Nat} {p : Nat × Nat} :
    p ∈ pairs n m ↔ p.1 < n ∧ p.2 < m := by
  cases p with
  | mk i j =>
      simp only [pairs, List.mem_flatMap, List.mem_map, List.mem_range,
        Prod.mk.injEq]
      constructor
      · rintro ⟨i', hi', j', hj', rfl, rfl⟩
        exact ⟨hi', hj'⟩
      · rintro ⟨hi, hj⟩
        exact ⟨i, hi, j, hj, rfl, rfl⟩

theorem pairs_eq_concat {n m : Nat} (hn : n ≠ 0) (hm : m ≠ 0) :
    ∃ l, pairs n m = l ++ [(n - 1, m - 1)] := by
  obtain ⟨n', rfl⟩ := Nat.exists_eq_succ_of_ne_zero hn
  obtain ⟨m', rfl⟩ := Nat.exists_eq_succ_of_ne_zero hm
  refine ⟨pairs n' (m' + 1) ++ (List.range m').map (fun j => (n', j)), ?_⟩
  rw [pairs, List.range_succ, List.flatMap_append]
  rw [show (List.range n').flatMap
    (fun i => (List.range (m' + 1)).map (fun j => (i, j))) = pairs n' (m' + 1)
    from rfl]
  simp only [List.flatMap_cons, List.flatMap_nil, List.append_nil,
    Nat.add_sub_cancel]
  rw [List.range_succ, List.map_append, ← List.append_assoc]
  rfl

theorem reverse_table_eq_pairs (table : List (List Nat)) :
    reverse_table table =
      (pairs table.length (table.headD []).length).foldl
        (fun r p => rev_upd table p r)
        (List.replicate table.length
          (List.replicate (table.headD []).length 0)) := by
  rw [foldl_pairs]
  rfl

theorem set2_shape {t : List (List Nat)} {n m : Nat} {X Y V : Nat}
    (hlen : t.length = n) (hrows : ∀ row ∈ t, row.length = m) :
    (t.set X ((t.getD X []).set Y V)).length = n ∧
      ∀ row ∈ t.set X ((t.getD X []).set Y V), row.length = m := by
  refine ⟨by simpa using hlen, ?_⟩
  intro row hrow
  by_cases hX : X < t.length
  · rcases List.mem_or_eq_of_mem_set hrow with h | rfl
    · exact hrows row h
    · rw [List.length_set, getD_of_lt _ hX]
      exact hrows _ (List.getElem_mem hX)
  · rw [List.set_eq_of_length_le (Nat.le_of_not_lt hX)] at hrow
    exact hrows row hrow

theorem set2_read_hit {t : List (List Nat)} {n m : Nat}
    (hlen : t.length = n) (hrows : ∀ row ∈ t, row.length = m)
    {X Y : Nat} (hX : X < n) (hY : Y < m) (V : Nat) :
    getEntry (t.set X ((t.getD X []).set Y V)) X Y = V := by
  have hXt : X < t.length := by omega
  unfold getEntry
  rw [getD_set_self hXt]
  refine getD_set_self ?_ _ _
  rw [getD_of_lt _ hXt]
  rw [hrows _ (List.getElem_mem hXt)]
  exact hY

theorem set2_read_miss {t : List (List Nat)} {X Y V p q : Nat}
    (hne : ¬(p = X ∧ q = Y)) :
    getEntry (t.set X ((t.getD X []).set Y V)) p q = getEntry t p q := by
  unfold getEntry
  by_cases hpX : p = X
  · subst hpX
    have hqY : Y ≠ q := fun h => hne ⟨rfl, h.symm⟩
    by_cases hX : p < t.length
    · rw [getD_set_self hX, getD_set_ne hqY]
    · rw [List.set_eq_of_length_le (Nat.le_of_not_lt hX)]
  · rw [getD_set_ne (fun h => hpX h.symm)]

theorem rev_upd_eq (table : List (List Nat)) {a c : Nat}
    (ha : ceil_log table.length = a)
    (hc : ceil_log (table.headD []).length = c)
    (hmb : max_bits table = a + c)
    (hb32 : a + c ≤ 32)
    (i j : Nat) (hj : j < 2 ^ c) (t : List (List Nat)) :
    rev_upd table (i, j) t =
      t.set (getEntry table i j / 2 ^ c % 2 ^ a)
        ((t.getD (getEntry table i j / 2 ^ c % 2 ^ a) []).set
          (getEntry table i j % 2 ^ c) (2 ^ c * i + j)) := by
  unfold rev_upd
  simp only [ha, hc, hmb]
  rw [num2bits_add]
  rw [List.take_left' (by simp), List.drop_left' (by simp)]
  rw [bits2num_eq_msbValue (by simp; omega), bits2num_eq_msbValue (by simp; omega),
    msbValue_num2bits, msbValue_num2bits]
  rw [Nat.mod_eq_of_lt (Nat.mod_lt _ (by positivity))]
  rw [Nat.shiftLeft_eq, Nat.mul_comm i (2 ^ c), ← Nat.mul_add_lt_is_or hj i]

theorem reverse_table_shape (table : List (List Nat)) :
    (reverse_table table).length = table.length ∧
      ∀ row ∈ reverse_table table, row.length = (table.headD []).length := by
  rw [reverse_table_eq_pairs]
  have hinit : (List.replicate table.length
        (List.replicate (table.headD []).length 0)).length = table.length ∧
      ∀ row ∈ List.replicate table.length
        (List.replicate (table.headD []).length 0),
        row.length = (table.headD []).length := by
    refine ⟨by simp, ?_⟩
    intro row hrow
    rw [(List.mem_replicate.1 hrow).2]
    simp
  exact foldl_preserves
    (fun t => t.length = table.length ∧
      ∀ row ∈ t, row.length = (table.headD []).length)
    (rev_upd table) _ _ hinit (fun p _ t ht => set2_shape ht.1 ht.2)

/-- Characterization of `SBox::transform` on a shape-valid table and an
input of the exact width `a + c`: it looks up the entry addressed by the
outer `a` bits and the middle `c` bits and re-encodes it over
`max_bits table` bits. -/
theorem transform_eq (table : List (List Nat)) {a c : Nat}
    (ha : ceil_log table.length = a)
    (hn : table.length = 2 ^ a)
    (hm : ∀ row ∈ table, row.length = 2 ^ c)
    (hb32 : a + c ≤ 32)
    (v : List Bool) (hv : v.length = a + c) :
    transform v table =
      some (num2bits
        (getEntry table (msbValue v / 2 ^ c) (msbValue v % 2 ^ c))
        (max_bits table)) := by
  have htake : (v.take a).length = a := by
    rw [List.length_take]
    omega
  have hdrop : (v.drop a).length = c := by
    rw [List.length_drop]
    omega
  have hto : msbValue (v.take a) < 2 ^ a := by
    have := msbValue_lt (v.take a)
    rwa [htake] at this
  have htm : msbValue (v.drop a) < 2 ^ c := by
    have := msbValue_lt (v.drop a)
    rwa [hdrop] at this
  have hbo : bits2num (v.take a) = msbValue (v.take a) :=
    bits2num_eq_msbValue (by rw [htake]; omega)
  have hbm : bits2num (v.drop a) = msbValue (v.drop a) :=
    bits2num_eq_msbValue (by rw [hdrop]; omega)
  have hsplit : msbValue v = 2 ^ c * msbValue (v.take a) + msbValue (v.drop a) := by
    conv_lhs => rw [← List.take_append_drop a v]
    rw [msbValue_append, hdrop, Nat.mul_comm]
  have hdiv : msbValue v / 2 ^ c = msbValue (v.take a) := by
    rw [hsplit, Nat.mul_add_div (by positivity), Nat.div_eq_of_lt htm, Nat.add_zero]
  have hmod : msbValue v % 2 ^ c = msbValue (v.drop a) := by
    rw [hsplit, Nat.mul_add_mod, Nat.mod_eq_of_lt htm]
  have hidx : msbValue (v.take a) < table.length := by
    rw [hn]
    exact hto
  simp only [transform, ha]
  rw [if_pos (by omega), hbo, hbm, List.getElem?_eq_getElem hidx]
  have hrowlen : table[msbValue (v.take a)].length = 2 ^ c :=
    hm _ (List.getElem_mem hidx)
  have hidx2 : msbValue (v.drop a) < table[msbValue (v.take a)].length := by
    rw [hrowlen]
    exact htm
  show (match table[msbValue (v.take a)][msbValue (v.drop a)]? with
    | some el => some (num2bits el (max_bits table))
    | none => none) = _
  rw [List.getElem?_eq_getElem hidx2]
  show some (num2bits table[msbValue (v.take a)][msbValue (v.drop a)]
    (max_bits table)) = _
  rw [hdiv, hmod]
  have hent : getEntry table (msbValue (v.take a)) (msbValue (v.drop a)) =
      table[msbValue (v.take a)][msbValue (v.drop a)] := by
    unfold getEntry
    rw [getD_of_lt _ hidx, getD_of_lt _ hidx2]
  rw [hent]

theorem rev_upd_read_hit (table : List (List Nat)) {a c : Nat}
    (ha : ceil_log table.length = a)
    (hc : ceil_log (table.headD []).length = c)
    (hmb : max_bits table = a + c) (hb32 : a + c ≤ 32)
    (i j : Nat) (hj : j < 2 ^ c)
    (t : List (List Nat)) (hlen : t.length = 2 ^ a)
    (hrows : ∀ row ∈ t, row.length = 2 ^ c) :
    getEntry (rev_upd table (i, j) t)
      (getEntry table i j / 2 ^ c % 2 ^ a) (getEntry table i j % 2 ^ c)
      = 2 ^ c * i + j := by
  rw [rev_upd_eq table ha hc hmb hb32 i j hj t]
  exact set2_read_hit hlen hrows (Nat.mod_lt _ (by positivity))
    (Nat.mod_lt _ (by positivity)) _

theorem rev_upd_read_miss (table : List (List Nat)) {a c : Nat}
    (ha : ceil_log table.length = a)
    (hc : ceil_log (table.headD []).length = c)
    (hmb : max_bits table = a + c) (hb32 : a + c ≤ 32)
    (i j : Nat) (hj : j < 2 ^ c) (t : List (List Nat)) (p q : Nat)
    (hne : ¬(p = getEntry table i j / 2 ^ c % 2 ^ a ∧
      q = getEntry table i j % 2 ^ c)) :
    getEntry (rev_upd table (i, j) t) p q = getEntry t p q := by
  rw [rev_upd_eq table ha hc hmb hb32 i j hj t]
  exact set2_read_miss hne

theorem getEntry_replicate (n m p q : Nat) :
    getEntry (List.replicate n (List.replicate m 0)) p q = 0 := by
  unfold getEntry
  rcases Nat.lt_or_ge p n with h | h
  · have hp : p < (List.replicate n (List.replicate m 0) : List (List Nat)).length := by
      simpa using h
    rw [getD_of_lt _ hp, List.getElem_replicate, getD_replicate_self]
  · have hp : (List.replicate n (List.replicate m 0) : List (List Nat)).length ≤ p := by
      simpa using h
    have houter : (List.replicate n (List.replicate m 0)).getD p ([] : List Nat) = [] := by
      rw [List.getD_eq_getElem?_getD, List.getElem?_eq_none hp]
      rfl
    rw [houter]
    rfl

theorem replicate_shape (n m : Nat) :
    (List.replicate n (List.replicate m 0) : List (List Nat)).length = n ∧
      ∀ row ∈ List.replicate n (List.replicate m 0), row.length = m := by
  refine ⟨by simp, ?_⟩
  intro row hrow
  rw [(List.mem_replicate.1 hrow).2]
  simp

/-- Every cell of the derived inverse table of a check-valid table with
`max_bits = a + c ≠ 1` needs exactly `a + c` bits again: all written values
are below `2 ^ (a + c)`, and the very last write (cell `(n-1, m-1)`) stores
`2 ^ (a + c) - 1`, which is never overwritten. -/
theorem max_bits_reverse_table (table : List (List Nat)) {a c : Nat}
    (ha : ceil_log table.length = a)
    (hc : ceil_log (table.headD []).length = c)
    (hn : table.length = 2 ^ a) (hm : (table.headD []).length = 2 ^ c)
    (hmb : max_bits table = a + c) (hb32 : a + c ≤ 32)
    (hb1 : a + c ≠ 1) :
    max_bits (reverse_table table) = a + c := by
  have hshape := reverse_table_shape table
  have hpres : ∀ pr ∈ pairs table.length (table.headD []).length,
      ∀ t : List (List Nat), (t.length = 2 ^ a ∧ ∀ row ∈ t, row.length = 2 ^ c) →
        ((rev_upd table pr t).length = 2 ^ a ∧
          ∀ row ∈ rev_upd table pr t, row.length = 2 ^ c) := by
    rintro pr _ t ⟨h1, h2⟩
    cases pr with
    | mk i j => exact set2_shape h1 h2
  have hinit : (List.replicate table.length
        (List.replicate (table.headD []).length 0)).length = 2 ^ a ∧
      ∀ row ∈ List.replicate table.length
        (List.replicate (table.headD []).length 0), row.length = 2 ^ c := by
    obtain ⟨h1, h2⟩ := replicate_shape table.length (table.headD []).length
    exact ⟨by omega, fun row hrow => by rw [h2 row hrow, hm]⟩
  have hupper : max_bits (reverse_table table) ≤ a + c := by
    rw [max_bits_le_iff]
    intro row hrow e he
    obtain ⟨p, hpl, hpeq⟩ := List.mem_iff_getElem.1 hrow
    obtain ⟨q, hql, hqeq⟩ := List.mem_iff_getElem.1 he
    have hcell : getEntry (reverse_table table) p q = e := by
      unfold getEntry
      rw [getD_of_lt _ hpl, hpeq, getD_of_lt _ hql, hqeq]
    have hcases := foldl_read_cases
      (fun t : List (List Nat) => t.length = 2 ^ a ∧ ∀ r ∈ t, r.length = 2 ^ c)
      (rev_upd table) (fun t => getEntry t p q) (fun z => z < 2 ^ (a + c))
      (pairs table.length (table.headD []).length)
      (List.replicate table.length (List.replicate (table.headD []).length 0))
      hinit hpres ?_
    · rw [← reverse_table_eq_pairs] at hcases
      rcases hcases with h | h
      · have h' : getEntry (reverse_table table) p q =
            getEntry (List.replicate table.length
              (List.replicate (table.headD []).length 0)) p q := h
        rw [hcell, getEntry_replicate] at h'
        rw [h', ceil_log_of_le_one (by omega)]
        omega
      · have h' : getEntry (reverse_table table) p q < 2 ^ (a + c) := h
        rw [hcell] at h'
        exact ceil_log_le_of_lt_pow h'
    · rintro ⟨i, j⟩ hij t ht
      have hij' : i < table.length ∧ j < (table.headD []).length := mem_pairs.1 hij
      have hi : i < 2 ^ a := by
        have := hij'.1
        omega
      have hjm : j < 2 ^ c := by
        have := hij'.2
        omega
      show getEntry (rev_upd table (i, j) t) p q = getEntry t p q ∨
        getEntry (rev_upd table (i, j) t) p q < 2 ^ (a + c)
      by_cases hhit : p = getEntry table i j / 2 ^ c % 2 ^ a ∧
          q = getEntry table i j % 2 ^ c
      · right
        rw [hhit.1, hhit.2, rev_upd_read_hit table ha hc hmb hb32 i j hjm t ht.1 ht.2]
        calc 2 ^ c * i + j < 2 ^ c * i + 2 ^ c := by omega
        _ = 2 ^ c * (i + 1) := by ring
        _ ≤ 2 ^ c * 2 ^ a := Nat.mul_le_mul_left _ (by omega)
        _ = 2 ^ (a + c) := by rw [← Nat.pow_add, Nat.add_comm]
      · left
        exact rev_upd_read_miss table ha hc hmb hb32 i j hjm t p q hhit
  by_cases hb0 : a + c = 0
  · omega
  · have hb2 : 2 ≤ a + c := by omega
    obtain ⟨l, hlast⟩ := pairs_eq_concat
      (by rw [hn]; positivity : table.length ≠ 0)
      (by rw [hm]; positivity : (table.headD []).length ≠ 0)
    have hlastpair : (table.length - 1, (table.headD []).length - 1)
        = ((2 ^ a - 1 : Nat), (2 ^ c - 1 : Nat)) := by
      rw [hn, hm]
    have hjm : (2 ^ c - 1 : Nat) < 2 ^ c := by
      have : (0 : Nat) < 2 ^ c := by positivity
      omega
    have hval : getEntry (reverse_table table)
        (getEntry table (2 ^ a - 1) (2 ^ c - 1) / 2 ^ c % 2 ^ a)
        (getEntry table (2 ^ a - 1) (2 ^ c - 1) % 2 ^ c)
        = 2 ^ c * (2 ^ a - 1) + (2 ^ c - 1) := by
      rw [reverse_table_eq_pairs, hlast, hlastpair]
      refine foldl_read_last
        (fun t : List (List Nat) => t.length = 2 ^ a ∧ ∀ r ∈ t, r.length = 2 ^ c)
        (rev_upd table)
        (fun t => getEntry t
          (getEntry table (2 ^ a - 1) (2 ^ c - 1) / 2 ^ c % 2 ^ a)
          (getEntry table (2 ^ a - 1) (2 ^ c - 1) % 2 ^ c))
        _ l _ _ hinit ?_ ?_
      · intro pr hpr t ht
        cases pr with
        | mk i j => exact set2_shape ht.1 ht.2
      · intro t ht
        exact rev_upd_read_hit table ha hc hmb hb32 _ _ hjm t ht.1 ht.2
    have hVeq : 2 ^ c * (2 ^ a - 1) + (2 ^ c - 1) = 2 ^ (a + c) - 1 := by
      obtain ⟨A, hA⟩ : ∃ A, 2 ^ a = A + 1 := ⟨2 ^ a - 1, by
        have h0 : (0 : Nat) < 2 ^ a := by positivity
        omega⟩
      obtain ⟨C, hC⟩ : ∃ C, 2 ^ c = C + 1 := ⟨2 ^ c - 1, by
        have h0 : (0 : Nat) < 2 ^ c := by positivity
        omega⟩
      rw [Nat.pow_add, hA, hC]
      have hexp : (A + 1) * (C + 1) = (C + 1) * A + C + 1 := by ring
      rw [hexp]
      simp [Nat.add_sub_cancel]
    have hP : getEntry table (2 ^ a - 1) (2 ^ c - 1) / 2 ^ c % 2 ^ a
        < (reverse_table table).length := by
      rw [hshape.1, hn]
      exact Nat.mod_lt _ (by positivity)
    have hQ : getEntry table (2 ^ a - 1) (2 ^ c - 1) % 2 ^ c
        < (reverse_table table)[getEntry table (2 ^ a - 1) (2 ^ c - 1) / 2 ^ c % 2 ^ a].length := by
      rw [hshape.2 _ (List.getElem_mem hP), hm]
      exact Nat.mod_lt _ (by positivity)
    have hmemrow : (reverse_table table)[getEntry table (2 ^ a - 1) (2 ^ c - 1) / 2 ^ c % 2 ^ a]
        ∈ reverse_table table := List.getElem_mem hP
    have hmemcell : (2 ^ (a + c) - 1 : Nat)
        ∈ (reverse_table table)[getEntry table (2 ^ a - 1) (2 ^ c - 1) / 2 ^ c % 2 ^ a] := by
      have : getEntry (reverse_table table)
          (getEntry table (2 ^ a - 1) (2 ^ c - 1) / 2 ^ c % 2 ^ a)
          (getEntry table (2 ^ a - 1) (2 ^ c - 1) % 2 ^ c) = 2 ^ (a + c) - 1 := by
        rw [hval, hVeq]
      rw [getEntry, getD_of_lt _ hP, getD_of_lt _ hQ] at this
      rw [← this]
      exact List.getElem_mem hQ
    have hlower := le_max_bits_of_mem hmemrow hmemcell
    rw [ceil_log_pred_pow hb2] at hlower
    omega

theorem sbox_new_eq_ok {table : List (List Nat)} {s : SBox}
    (h : new table = Except.ok s) :
    check_table table = true ∧ s.table = table ∧
      s.inverse_table = reverse_table table := by
  unfold new at h
  by_cases hv : check_table table
  · rw [if_pos hv] at h
    injection h with h
    subst h
    exact ⟨hv, rfl, rfl⟩
  · rw [if_neg hv] at h
    simp at h

theorem max_bits_le_32 {table : List (List Nat)}
    (hent : ∀ row ∈ table, ∀ e ∈ row, e < 2 ^ 32) : max_bits table ≤ 32 := by
  rw [max_bits_le_iff]
  intro row hrow e he
  exact ceil_log_le_of_lt_pow (hent row hrow e he)

theorem tableFun_pair (table : List (List Nat)) {c : Nat}
    (hc : ceil_log (table.headD []).length = c)
    (i j : Nat) (hj : j < 2 ^ c) :
    tableFun table (2 ^ c * i + j) = getEntry table i j := by
  unfold tableFun
  rw [hc, Nat.mul_add_div (by positivity), Nat.div_eq_of_lt hj, Nat.add_zero,
    Nat.mul_add_mod, Nat.mod_eq_of_lt hj]

/-- Under the bijectivity precondition, `a + c = 1` is impossible for a
check-valid table: the check forces some entry with `ceil_log = 1`, i.e. the
entry `2`, which is not a 1-bit value. -/
theorem b_ne_one_of_bijective (table : List (List Nat)) {a c : Nat}
    (hc : ceil_log (table.headD []).length = c)
    (hn : table.length = 2 ^ a)
    (hrows : ∀ row ∈ table, row.length = 2 ^ c)
    (hmb : max_bits table = a + c)
    (hrange : ∀ x, x < 2 ^ (a + c) → tableFun table x < 2 ^ (a + c)) :
    a + c ≠ 1 := by
  intro h1
  rcases max_bits_cases table with h0 | ⟨row, hrow, e, he, hmax⟩
  · omega
  · have he2 : e = 2 := eq_two_of_ceil_log_eq_one (by omega)
    obtain ⟨i, hi, hieq⟩ := List.mem_iff_getElem.1 hrow
    obtain ⟨j, hj, hjeq⟩ := List.mem_iff_getElem.1 he
    have hjc : j < 2 ^ c := by
      have := hrows row hrow
      omega
    have hia : i < 2 ^ a := by omega
    have hent : getEntry table i j = e := by
      unfold getEntry
      rw [getD_of_lt _ hi, hieq, getD_of_lt _ hj, hjeq]
    have hx0 : 2 ^ c * i + j < 2 ^ (a + c) := by
      calc 2 ^ c * i + j < 2 ^ c * i + 2 ^ c := by omega
      _ = 2 ^ c * (i + 1) := by ring
      _ ≤ 2 ^ c * 2 ^ a := Nat.mul_le_mul_left _ (by omega)
      _ = 2 ^ (a + c) := by rw [← Nat.pow_add, Nat.add_comm]
    have := hrange _ hx0
    rw [tableFun_pair table hc i j hjc, hent, he2, h1] at this
    omega

/-- Under the bijectivity precondition, the derived inverse table holds the
encoded source address at the position addressed by the entry's bits. -/
theorem reverse_table_lookup (table : List (List Nat)) {a c : Nat}
    (ha : ceil_log table.length = a)
    (hc : ceil_log (table.headD []).length = c)
    (hn : table.length = 2 ^ a) (hm : (table.headD []).length = 2 ^ c)
    (hmb : max_bits table = a + c) (hb32 : a + c ≤ 32)
    (hrange : ∀ x, x < 2 ^ (a + c) → tableFun table x < 2 ^ (a + c))
    (hinj : ∀ x y, x < 2 ^ (a + c) → y < 2 ^ (a + c) →
      tableFun table x = tableFun table y → x = y)
    (x : Nat) (hx : x < 2 ^ (a + c)) :
    getEntry (reverse_table table) (tableFun table x / 2 ^ c)
      (tableFun table x % 2 ^ c) = x := by
  have hpow : (2 : Nat) ^ (a + c) = 2 ^ c * 2 ^ a := by
    rw [← Nat.pow_add, Nat.add_comm]
  have hi : x / 2 ^ c < 2 ^ a := Nat.div_lt_of_lt_mul (by omega)
  have hj : x % 2 ^ c < 2 ^ c := Nat.mod_lt _ (by positivity)
  have hfx : tableFun table x = getEntry table (x / 2 ^ c) (x % 2 ^ c) := by
    unfold tableFun
    rw [hc]
  have hex : tableFun table x < 2 ^ (a + c) := hrange x hx
  have hediv : tableFun table x / 2 ^ c < 2 ^ a :=
    Nat.div_lt_of_lt_mul (by omega)
  have hkey : ∀ i' j', i' < 2 ^ a → j' < 2 ^ c →
      getEntry table i' j' = tableFun table (2 ^ c * i' + j') ∧
      2 ^ c * i' + j' < 2 ^ (a + c) := by
    intro i' j' hi' hj'
    refine ⟨(tableFun_pair table hc i' j' hj').symm, ?_⟩
    calc 2 ^ c * i' + j' < 2 ^ c * i' + 2 ^ c := by omega
    _ = 2 ^ c * (i' + 1) := by ring
    _ ≤ 2 ^ c * 2 ^ a := Nat.mul_le_mul_left _ (by omega)
    _ = 2 ^ (a + c) := by rw [← Nat.pow_add, Nat.add_comm]
  rw [reverse_table_eq_pairs]
  have hres := foldl_read_hit
    (fun t : List (List Nat) => t.length = 2 ^ a ∧ ∀ r ∈ t, r.length = 2 ^ c)
    (rev_upd table)
    (fun t => getEntry t (tableFun table x / 2 ^ c) (tableFun table x % 2 ^ c))
    (2 ^ c * (x / 2 ^ c) + x % 2 ^ c)
    (pairs table.length (table.headD []).length)
    (List.replicate table.length (List.replicate (table.headD []).length 0))
    (x / 2 ^ c, x % 2 ^ c)
    ?_ ?_ ?_ ?_ ?_
  · have hres' : getEntry
        (List.foldl (fun r p => rev_upd table p r)
          (List.replicate table.length (List.replicate (table.headD []).length 0))
          (pairs table.length (table.headD []).length))
        (tableFun table x / 2 ^ c) (tableFun table x % 2 ^ c)
        = 2 ^ c * (x / 2 ^ c) + x % 2 ^ c := hres
    rw [hres', Nat.div_add_mod]
  · obtain ⟨h1, h2⟩ := replicate_shape table.length (table.headD []).length
    exact ⟨by omega, fun row hrow => by rw [h2 row hrow, hm]⟩
  · rintro ⟨i', j'⟩ _ t ht
    exact set2_shape ht.1 ht.2
  · rw [mem_pairs]
    exact ⟨by omega, by omega⟩
  · intro t ht
    show getEntry (rev_upd table (x / 2 ^ c, x % 2 ^ c) t)
      (tableFun table x / 2 ^ c) (tableFun table x % 2 ^ c)
      = 2 ^ c * (x / 2 ^ c) + x % 2 ^ c
    have hthis := rev_upd_read_hit table ha hc hmb hb32 (x / 2 ^ c) (x % 2 ^ c) hj
      t ht.1 ht.2
    have hbound : getEntry table (x / 2 ^ c) (x % 2 ^ c) / 2 ^ c < 2 ^ a := by
      rw [← hfx]
      exact hediv
    rw [hfx]
    rwa [Nat.mod_eq_of_lt hbound] at hthis
  · rintro ⟨i', j'⟩ hmem hne t ht
    have hij' : i' < table.length ∧ j' < (table.headD []).length := mem_pairs.1 hmem
    have hi' : i' < 2 ^ a := by
      have := hij'.1
      omega
    have hj' : j' < 2 ^ c := by
      have := hij'.2
      omega
    obtain ⟨hfe', hx'⟩ := hkey i' j' hi' hj'
    refine rev_upd_read_miss table ha hc hmb hb32 i' j' hj' t _ _ ?_
    rintro ⟨hp, hq⟩
    have he' : tableFun table (2 ^ c * i' + j') < 2 ^ (a + c) := hrange _ hx'
    have he'div : getEntry table i' j' / 2 ^ c < 2 ^ a := by
      rw [hfe']
      exact Nat.div_lt_of_lt_mul (by omega)
    rw [Nat.mod_eq_of_lt he'div] at hp
    have heq : tableFun table x = getEntry table i' j' := by
      conv_lhs => rw [← Nat.div_add_mod (tableFun table x) (2 ^ c)]
      rw [hp, hq, Nat.div_add_mod]
    have hxeq := hinj x (2 ^ c * i' + j') hx hx' (by rw [heq, hfe'])
    apply hne
    have hieq : i' = x / 2 ^ c := by
      rw [hxeq, Nat.mul_add_div (by positivity), Nat.div_eq_of_lt hj', Nat.add_zero]
    have hjeq : j' = x % 2 ^ c := by
      rw [hxeq, Nat.mul_add_mod, Nat.mod_eq_of_lt hj']
    rw [hieq, hjeq]

theorem eq_shiftLeft_ceil_log_iff (n : Nat) :
    n = 1 <<< ceil_log n ↔ ∃ k, n = 2 ^ k := by
  rw [Nat.one_shiftLeft]
  constructor
  · intro h
    exact ⟨ceil_log n, h⟩
  · rintro ⟨k, rfl⟩
    rw [ceil_log_two_pow]

end SBox

theorem lt_pow_bitsToRepresent (x : Nat) : x < 2 ^ bitsToRepresent x := by
  have := le_pow_ceil_log (x + 1)
  unfold bitsToRepresent
  omega

theorem bitsToRepresent_le {x k : Nat} (h : x < 2 ^ k) : bitsToRepresent x ≤ k :=
  ceil_log_le _ _ (by omega)

/-- C2: for every SBox built successfully by `SBox::new` from an `n × m`
table of `u32` entries whose induced function on `b`-bit values
(`b = ceil_log n + ceil_log m`) is a bijection, and every bit vector `v` of
length `b`, decrypting the encryption of `v` gives back exactly `v`. -/
theorem claim_C2_sbox_decrypt_encrypt (table : List (List Nat)) (s : SBox)
    (v : List Bool)
    (hnew : SBox.new table = Except.ok s)
    (hu32 : ∀ row ∈ table, ∀ e ∈ row, e < 2 ^ 32)
    (hbij : SBox.TableBijective table)
    (hlen : v.length = ceil_log table.length + ceil_log (table.headD []).length) :
    (s.encrypt v).bind s.decrypt = some v := by
  obtain ⟨hchk, hst, hsi⟩ := SBox.sbox_new_eq_ok hnew
  obtain ⟨hn, hrows, hm, hmb⟩ := SBox.check_table_spec hchk
  obtain ⟨hrange, hinj0⟩ := hbij
  have hinj : ∀ x y,
      x < 2 ^ (ceil_log table.length + ceil_log (table.headD []).length) →
      y < 2 ^ (ceil_log table.length + ceil_log (table.headD []).length) →
      SBox.tableFun table x = SBox.tableFun table y → x = y :=
    fun x y hx hy => hinj0 x hx y hy
  have hb32 : ceil_log table.length + ceil_log (table.headD []).length ≤ 32 := by
    rw [← hmb]
    exact SBox.max_bits_le_32 hu32
  have hx : msbValue v <
      2 ^ (ceil_log table.length + ceil_log (table.headD []).length) := by
    have := msbValue_lt v
    rwa [hlen] at this
  have henc := SBox.transform_eq table rfl hn hrows hb32 v hlen
  have henc' : SBox.transform v table =
      some (num2bits (SBox.tableFun table (msbValue v)) (SBox.max_bits table)) :=
    henc
  have he : SBox.tableFun table (msbValue v) <
      2 ^ (ceil_log table.length + ceil_log (table.headD []).length) :=
    hrange _ hx
  have hwlen : (num2bits (SBox.tableFun table (msbValue v))
      (SBox.max_bits table)).length
      = ceil_log table.length + ceil_log (table.headD []).length := by
    rw [length_num2bits, hmb]
  have hshape := SBox.reverse_table_shape table
  have hb1 := SBox.b_ne_one_of_bijective table rfl hn hrows hmb hrange
  have hdec := SBox.transform_eq (SBox.reverse_table table)
    (show ceil_log (SBox.reverse_table table).length = ceil_log table.length by
      rw [hshape.1])
    (by rw [hshape.1]; exact hn)
    (fun row hrow => by rw [hshape.2 row hrow]; exact hm)
    hb32 _ hwlen
  have hmw : msbValue (num2bits (SBox.tableFun table (msbValue v))
      (SBox.max_bits table)) = SBox.tableFun table (msbValue v) := by
    rw [msbValue_num2bits, hmb, Nat.mod_eq_of_lt he]
  have hlook := SBox.reverse_table_lookup table rfl rfl hn hm hmb hb32 hrange hinj
    (msbValue v) hx
  have hmbrev := SBox.max_bits_reverse_table table rfl rfl hn hm hmb hb32 hb1
  show (SBox.transform v s.table).bind
    (fun w => SBox.transform w s.inverse_table) = some v
  rw [hst, hsi, henc']
  rw [show ((some (num2bits (SBox.tableFun table (msbValue v))
      (SBox.max_bits table))).bind
      fun w => SBox.transform w (SBox.reverse_table table))
      = SBox.transform (num2bits (SBox.tableFun table (msbValue v))
        (SBox.max_bits table)) (SBox.reverse_table table) from rfl]
  rw [hdec, hmw, hlook, hmbrev, ← hlen, num2bits_msbValue]

/-- Witness for C2: the 2×2 table `[[3, 2], [1, 0]]`, a bijection on 2-bit
values, on input `[true, false]`. -/
theorem claim_C2_witness :
    ((SBox.mk [[3, 2], [1, 0]] [[3, 2], [1, 0]]).encrypt [true, false]).bind
      (SBox.mk [[3, 2], [1, 0]] [[3, 2], [1, 0]]).decrypt = some [true, false] :=
  claim_C2_sbox_decrypt_encrypt [[3, 2], [1, 0]]
    ⟨[[3, 2], [1, 0]], [[3, 2], [1, 0]]⟩ [true, false]
    rfl (by decide) (by unfold SBox.TableBijective; decide) (by decide)

/-- C8 (amended): on a successfully constructed SBox with width
`b = ceil_log n + ceil_log m` and an input of length `b`, `encrypt` always
returns exactly `b` bits; `decrypt` returns exactly `b` bits whenever
`b ≠ 1` (at `b = 1` the derived inverse table's `max_bits` collapses to `0`
and `decrypt` returns the empty vector instead). -/
theorem claim_C8_sbox_output_length (table : List (List Nat)) (s : SBox)
    (v : List Bool)
    (hnew : SBox.new table = Except.ok s)
    (hu32 : ∀ row ∈ table, ∀ e ∈ row, e < 2 ^ 32)
    (hlen : v.length = ceil_log table.length + ceil_log (table.headD []).length) :
    (∃ w, s.encrypt v = some w ∧
      w.length = ceil_log table.length + ceil_log (table.headD []).length) ∧
    (ceil_log table.length + ceil_log (table.headD []).length ≠ 1 →
      ∃ w, s.decrypt v = some w ∧
        w.length = ceil_log table.length + ceil_log (table.headD []).length) := by
  obtain ⟨hchk, hst, hsi⟩ := SBox.sbox_new_eq_ok hnew
  obtain ⟨hn, hrows, hm, hmb⟩ := SBox.check_table_spec hchk
  have hb32 : ceil_log table.length + ceil_log (table.headD []).length ≤ 32 := by
    rw [← hmb]
    exact SBox.max_bits_le_32 hu32
  constructor
  · have henc := SBox.transform_eq table rfl hn hrows hb32 v hlen
    refine ⟨num2bits (SBox.getEntry table
        (msbValue v / 2 ^ ceil_log (table.headD []).length)
        (msbValue v % 2 ^ ceil_log (table.headD []).length))
      (SBox.max_bits table), ?_, ?_⟩
    · show SBox.transform v s.table = _
      rw [hst, henc]
    · rw [length_num2bits, hmb]
  · intro hb1
    have hshape := SBox.reverse_table_shape table
    have hdec := SBox.transform_eq (SBox.reverse_table table)
      (show ceil_log (SBox.reverse_table table).length = ceil_log table.length by
        rw [hshape.1])
      (by rw [hshape.1]; exact hn)
      (fun row hrow => by rw [hshape.2 row hrow]; exact hm)
      hb32 v hlen
    have hmbrev := SBox.max_bits_reverse_table table rfl rfl hn hm hmb hb32 hb1
    refine ⟨num2bits (SBox.getEntry (SBox.reverse_table table)
        (msbValue v / 2 ^ ceil_log (table.headD []).length)
        (msbValue v % 2 ^ ceil_log (table.headD []).length))
      (SBox.max_bits (SBox.reverse_table table)), ?_, ?_⟩
    · show SBox.transform v s.inverse_table = _
      rw [hsi, hdec]
    · rw [length_num2bits, hmbrev]

/-- Witness for the amended C8: the valid 2×2 table `[[3, 2], [1, 0]]`
(b = 2) on input `[false, true]`. -/
theorem claim_C8_witness :
    (∃ w, (SBox.mk [[3, 2], [1, 0]] [[3, 2], [1, 0]]).encrypt [false, true]
      = some w ∧ w.length = 2) ∧
    ((2 : Nat) ≠ 1 →
      ∃ w, (SBox.mk [[3, 2], [1, 0]] [[3, 2], [1, 0]]).decrypt [false, true]
        = some w ∧ w.length = 2) :=
  claim_C8_sbox_output_length [[3, 2], [1, 0]]
    ⟨[[3, 2], [1, 0]], [[3, 2], [1, 0]]⟩ [false, true] rfl (by decide) rfl

/-- C8 counterexample: the table `[[2], [0]]` is accepted (`b = 1`), yet
`decrypt` on the 1-bit input `[true]` returns the empty bit vector, not a
vector of length `b`: the inverse table `[[1], [0]]` has `max_bits 0`. -/
theorem claim_C8_counterexample :
    SBox.new [[2], [0]] = Except.ok ⟨[[2], [0]], [[1], [0]]⟩ ∧
    ceil_log ([[2], [0]] : List (List Nat)).length +
      ceil_log (([[2], [0]] : List (List Nat)).headD []).length = 1 ∧
    (SBox.mk [[2], [0]] [[1], [0]]).decrypt [true] = some [] :=
  ⟨rfl, rfl, rfl⟩

/-- C3 counterexample: a valid `PBox` and a valid `SBox`, each applied to an
input of the wrong length, panic with out-of-bounds indexing (`none`)
instead of failing with an `InvalidInputLength` error — no such error value
exists anywhere in the code. -/
theorem claim_C3_counterexample :
    PBox.new [2, 1] = Except.ok ⟨[2, 1], [2, 1]⟩ ∧
    (PBox.mk [2, 1] [2, 1]).encrypt [true] = none ∧
    SBox.new [[0]] = Except.ok ⟨[[0]], [[0]]⟩ ∧
    (SBox.mk [[0]] [[0]]).encrypt [true] = none :=
  ⟨rfl, rfl, rfl, rfl⟩

/-- C4 counterexample: the table `[[0, 1], [2, 2]]` meets every condition of
the claim — 2×2 with both dimensions powers of two, consistent row lengths,
and the maximum number of bits required to represent an entry (the entry `2`
takes two binary digits) equal to `b = ceil_log 2 + ceil_log 2 = 2` — yet
`SBox::new` rejects it, because the code compares
`max ceil_log(entry) = ceil_log 2 = 1` against `b`, not the representation
width. -/
theorem claim_C4_counterexample :
    SBox.new [[0, 1], [2, 2]] = Except.error "invalid table" ∧
    maxRepresentationBits [[0, 1], [2, 2]] =
      ceil_log ([[0, 1], [2, 2]] : List (List Nat)).length +
        ceil_log (([[0, 1], [2, 2]] : List (List Nat)).headD []).length ∧
    ([[0, 1], [2, 2]] : List (List Nat)).length = 2 ^ 1 ∧
    (([[0, 1], [2, 2]] : List (List Nat)).headD []).length = 2 ^ 1 ∧
    (∀ row ∈ ([[0, 1], [2, 2]] : List (List Nat)),
      row.length = (([[0, 1], [2, 2]] : List (List Nat)).headD []).length) := by
  refine ⟨rfl, rfl, rfl, rfl, ?_⟩
  decide

/-- C4 (amended): `SBox::new` returns the `InvalidTable` error iff the row
count is zero or not a power of two, or the column count (taken from the
first row) is zero or not a power of two, or some row's length differs from
the first row's, or the maximum over the entries of `ceil_log entry` — the
quantity the code's `max_bits` computes, which is the number of bits needed
to address `entry + 1` values rather than to represent `entry` — differs
from `ceil_log n + ceil_log m`; otherwise it returns a valid SBox. -/
theorem claim_C4_sbox_new_iff (table : List (List Nat)) :
    (SBox.new table = Except.error "invalid table" ↔
      ((table.length = 0 ∨ ¬∃ k, table.length = 2 ^ k) ∨
        ((table.headD []).length = 0 ∨ ¬∃ k, (table.headD []).length = 2 ^ k) ∨
        (∃ row ∈ table, row.length ≠ (table.headD []).length) ∨
        SBox.max_bits table ≠
          ceil_log table.length + ceil_log (table.headD []).length)) ∧
    (SBox.new table = Except.ok ⟨table, SBox.reverse_table table⟩ ↔
      ¬((table.length = 0 ∨ ¬∃ k, table.length = 2 ^ k) ∨
        ((table.headD []).length = 0 ∨ ¬∃ k, (table.headD []).length = 2 ^ k) ∨
        (∃ row ∈ table, row.length ≠ (table.headD []).length) ∨
        SBox.max_bits table ≠
          ceil_log table.length + ceil_log (table.headD []).length)) := by
  have hpow1 := SBox.eq_shiftLeft_ceil_log_iff table.length
  have hpow2 := SBox.eq_shiftLeft_ceil_log_iff (table.headD []).length
  have hcond : SBox.check_table table = true ↔
      ¬((table.length = 0 ∨ ¬∃ k, table.length = 2 ^ k) ∨
        ((table.headD []).length = 0 ∨ ¬∃ k, (table.headD []).length = 2 ^ k) ∨
        (∃ row ∈ table, row.length ≠ (table.headD []).length) ∨
        SBox.max_bits table ≠
          ceil_log table.length + ceil_log (table.headD []).length) := by
    rw [SBox.check_table_iff]
    constructor
    · rintro ⟨h1, h2, h3, h4, h5, h6⟩
      rintro ((h | h) | (h | h) | ⟨row, hrow, hne⟩ | h)
      · exact h1 h
      · exact h (hpow1.1 h2)
      · exact h3 h
      · exact h (hpow2.1 h4)
      · exact hne (h5 row hrow)
      · exact h h6
    · intro hnot
      push_neg at hnot
      exact ⟨hnot.1.1, hpow1.2 hnot.1.2, hnot.2.1.1, hpow2.2 hnot.2.1.2,
        fun row hrow => hnot.2.2.1 row hrow, hnot.2.2.2⟩
  by_cases hchk : SBox.check_table table
  · have hok : SBox.new table = Except.ok ⟨table, SBox.reverse_table table⟩ := by
      unfold SBox.new
      rw [if_pos hchk]
    constructor
    · refine iff_of_false ?_ (fun hcl => (hcond.1 hchk) hcl)
      rw [hok]
      simp
    · exact iff_of_true hok (hcond.1 hchk)
  · have herr : SBox.new table = Except.error "invalid table" := by
      unfold SBox.new
      rw [if_neg hchk]
    constructor
    · refine iff_of_true herr ?_
      by_contra hno
      exact hchk (hcond.2 hno)
    · refine iff_of_false ?_ (fun hnotcl => hchk (hcond.2 hnotcl))
      rw [herr]
      simp

/-- C5 counterexample: at width 33 the first round-trip law fails, because
`bits2num` accumulates in a 32-bit register and discards the leading bit:
the vector `1` followed by 32 zeroes encodes to `0`. -/
theorem claim_C5_counterexample :
    num2bits (bits2num (true :: List.replicate 32 false)) 33 ≠
      true :: List.replicate 32 false := by
  decide

/-- C5 (amended): the first round-trip law holds for every width `k ≤ 32`,
and the second holds for every `u32` value `x < 2 ^ k` at every width `k`
with no upper bound; only the first law's unbounded quantification over `k`
fails. -/
theorem claim_C5_roundtrip :
    (∀ v : List Bool, v.length ≤ 32 → num2bits (bits2num v) v.length = v) ∧
    (∀ x k : Nat, x < 2 ^ 32 → x < 2 ^ k → bits2num (num2bits x k) = x) := by
  constructor
  · intro v hv
    rw [bits2num_eq_msbValue hv, num2bits_msbValue]
  · intro x k h32 hk
    rw [bits2num_eq_msbValue_mod, msbValue_num2bits, Nat.mod_eq_of_lt hk,
      Nat.mod_eq_of_lt h32]

/-- Witness for the amended C5: both laws at width 3. -/
theorem claim_C5_witness :
    num2bits (bits2num [true, false, true]) ([true, false, true] : List Bool).length
      = [true, false, true] ∧
    bits2num (num2bits 6 3) = 6 :=
  ⟨claim_C5_roundtrip.1 [true, false, true] (by decide),
   claim_C5_roundtrip.2 6 3 (by decide) (by decide)⟩

/-- C6: `ceil_log n` is the least `c ≥ 0` with `2 ^ c ≥ n` for every
`n ≥ 1`; the concrete values at `1, 8, 9, 15, 16, 17` are as the
specification lists; and `ceil_log 0 = 0` without failing. -/
theorem claim_C6_ceil_log :
    (∀ n, 1 ≤ n → n ≤ 2 ^ ceil_log n ∧ ∀ c, n ≤ 2 ^ c → ceil_log n ≤ c) ∧
    ceil_log 1 = 0 ∧ ceil_log 8 = 3 ∧ ceil_log 9 = 4 ∧ ceil_log 15 = 4 ∧
    ceil_log 16 = 4 ∧ ceil_log 17 = 5 ∧ ceil_log 0 = 0 :=
  ⟨fun n _ => ⟨le_pow_ceil_log n, fun c hc => ceil_log_le n c hc⟩,
   by decide, by decide, by decide, by decide, by decide, by decide, by decide⟩

/-- Witness for C6: minimality at `n = 5`: `ceil_log 5` is at most 3 and
`2 ^ ceil_log 5` is at least 5. -/
theorem claim_C6_witness : 5 ≤ 2 ^ ceil_log 5 ∧ ceil_log 5 ≤ 3 :=
  ⟨(claim_C6_ceil_log.1 5 (by decide)).1,
   (claim_C6_ceil_log.1 5 (by decide)).2 3 (by decide)⟩

/-- C9: `bits2num` is total on bit vectors of every length and returns the
most-significant-bit-first value of the vector reduced modulo `2 ^ 32`; bits
shifted out of the 32-bit accumulator are silently discarded and the
function never fails. -/
theorem claim_C9_bits2num_total_mod (v : List Bool) :
    bits2num v = msbValue v % 2 ^ 32 :=
  bits2num_eq_msbValue_mod v

end PSBoxs
